import Mathlib

/-!
Verification of the evidex grounded-answer pipeline.

This file gives a shallow embedding of the trust-enforcing core of the
repository (`evidex/graph.py`, `evidex/llm.py`, `evidex/qa.py`) and proves
the frozen claims about it.

Modelling conventions, used throughout:

* Python strings are modelled as `String` / `List Char`; all scanning
  functions are written by structural recursion so that they reduce inside
  the kernel.  The ASCII fragment of Python's `str.lower` and of the regex
  character classes is modelled; non-ASCII word characters are outside the
  modelled universe.
* Python dicts that are only read through `.get` with a default are
  modelled as structures whose optional fields carry the default through
  `Option.getD`.
* External collaborators that live outside the embedded source are passed
  as explicit function parameters: the JSON decoder (`json.loads` of the
  Python standard library), the regex engine behind the fenced-block
  searches (`re.search` of the standard library), and the heuristic entity
  extractor (declared an external collaborator by the specification).
  Every theorem below therefore holds for every instantiation of these
  parameters, in particular for the real ones.
* Debug/reason strings are produced by the source only for human
  introspection and are never branched on; they are modelled as structured
  values (inductive types carrying the interpolated data) rather than as
  formatted prose.
-/

deriving instance DecidableEq for Except

/-! ## Generic list helpers (kernel-reducible replacements for library
functions that do not reduce, and for Python idioms) -/

/-- Deduplication keeping the first occurrence of each element, the
semantics of the `seen`-set idiom used throughout the Python source. -/
def dedupFirstAux {α : Type} [DecidableEq α] : List α → List α → List α
  | [], _ => []
  | x :: xs, seen => if x ∈ seen then dedupFirstAux xs seen else x :: dedupFirstAux xs (x :: seen)

/-- Deduplication keeping first occurrences. -/
def dedupFirst {α : Type} [DecidableEq α] (l : List α) : List α := dedupFirstAux l []

/-- Insertion step of insertion sort with a boolean comparator. -/
def insertLe {α : Type} (le : α → α → Bool) (x : α) : List α → List α
  | [] => [x]
  | y :: ys => if le x y then x :: y :: ys else y :: insertLe le x ys

/-- Insertion sort with a boolean comparator.  Python's `list.sort` /
`sorted` agree with any correct sort whenever the comparator is a total
order that is antisymmetric on the elements being sorted, which is the
case at every call site below (keys are distinct). -/
def sortLe {α : Type} (le : α → α → Bool) : List α → List α
  | [] => []
  | x :: xs => insertLe le x (sortLe le xs)

/-- Boolean test for one list occurring as a contiguous sublist of
another; models Python's `in` operator on strings. -/
def occursIn {α : Type} [DecidableEq α] (pat : List α) : List α → Bool
  | [] => decide (pat = [])
  | x :: rest => pat.isPrefixOf (x :: rest) || occursIn pat rest

/-- Lexicographic comparison of character lists by code point, the
ordering Python's `sorted` uses on strings. -/
def charListLe : List Char → List Char → Bool
  | [], _ => true
  | _ :: _, [] => false
  | a :: as, b :: bs =>
    if a.toNat < b.toNat then true
    else if b.toNat < a.toNat then false
    else charListLe as bs

/-- Python string ordering (code-point lexicographic). -/
def strLe (a b : String) : Bool := charListLe a.toList b.toList

/-- ASCII whitespace test modelling Python's `str.strip` character class
on the modelled (ASCII) universe. -/
def isPyWS (c : Char) : Bool := c = ' ' || c = '\t' || c = '\n' || c = '\r' || c = '\x0b' || c = '\x0c'

/-- Python `str.strip`: drop leading and trailing whitespace. -/
def stripChars (cs : List Char) : List Char :=
  ((cs.dropWhile isPyWS).reverse.dropWhile isPyWS).reverse

/-! ## Data model

Modelled from the spec: the module `evidex/models.py` declaring
`Document`, `Section`, `Paragraph`, `Equation` and `Entities` is not part
of the source tree (only its importers are), so the carrier structures
below follow §3 "DATA MODEL" of the specification.  They are passive
records; no behaviour of `models.py` decides any claim. -/

/-- Modelled from the spec: `Entities` — two deduplicated collections of
extracted entities.  The Python field `variables` is a reserved word in
Lean and is rendered `vars`. -/
structure Entities where
  vars : List String
  concepts : List String
deriving DecidableEq

/-- Modelled from the spec: `Paragraph` — stable unique id, raw text,
optional pre-computed entities, referenced equation ids. -/
structure Paragraph where
  paragraph_id : String
  text : String
  entities : Option Entities := none
  equation_refs : List String := []
deriving DecidableEq

/-- Modelled from the spec: `Equation` — stable unique id, verbatim text,
originating paragraph id. -/
structure Equation where
  equation_id : String
  equation_text : String
  associated_paragraph_id : String
deriving DecidableEq

/-- Modelled from the spec: `Section` — title and ordered paragraphs.
Named `DocSection` because `section` is a Lean keyword. -/
structure DocSection where
  title : String
  paragraphs : List Paragraph
deriving DecidableEq

/-- Modelled from the spec: `Document` — title, ordered sections, flat
equation list. -/
structure Document where
  title : String
  sections : List DocSection
  equations : List Equation
deriving DecidableEq

/-- All paragraphs of a document in document order, as iterated by
`planner_node`'s nested loop over `document.sections` / `section.paragraphs`. -/
def docParagraphs (d : Document) : List Paragraph :=
  (d.sections.map DocSection.paragraphs).flatten

/-! ## Keyword extraction (`evidex/graph.py`, `extract_keywords`) -/

/-- Stop words filtered by `extract_keywords`, verbatim from the source. -/
def STOP_WORDS : List String :=
  ["a", "an", "the", "is", "are", "was", "were", "be", "been", "being",
   "have", "has", "had", "do", "does", "did", "will", "would", "could",
   "should", "may", "might", "must", "shall", "can", "need", "dare",
   "ought", "used", "to", "of", "in", "for", "on", "with", "at", "by",
   "from", "as", "into", "through", "during", "before", "after",
   "above", "below", "between", "under", "again", "further", "then",
   "once", "here", "there", "when", "where", "why", "how", "all", "each",
   "few", "more", "most", "other", "some", "such", "no", "nor", "not",
   "only", "own", "same", "so", "than", "too", "very", "just", "and",
   "but", "if", "or", "because", "until", "while", "although", "though",
   "this", "that", "these", "those", "what", "which", "who", "whom",
   "i", "me", "my", "myself", "we", "our", "ours", "ourselves", "you",
   "your", "yours", "yourself", "yourselves", "he", "him", "his",
   "himself", "she", "her", "hers", "herself", "it", "its", "itself",
   "they", "them", "their", "theirs", "themselves", "about", "also",
   "paper", "defined", "describe", "explain", "discussed", "mentioned"]

/-- ASCII alphanumeric test, the character class `[a-zA-Z0-9]` of the
keyword regex. -/
def isAsciiAlnum (c : Char) : Bool := c.isAlpha || c.isDigit

/-- Word character in the sense of the regex metacharacter `\w`
(restricted to the modelled ASCII universe): alphanumeric or underscore. -/
def isWordChar (c : Char) : Bool := isAsciiAlnum c || c = '_'

/-- Maximal runs of characters satisfying a predicate (auxiliary, with
the current run accumulated in reverse). -/
def runsByAux (p : Char → Bool) : List Char → List Char → List (List Char)
  | [], acc => if acc = [] then [] else [acc.reverse]
  | c :: rest, acc =>
    if p c then runsByAux p rest (c :: acc)
    else if acc = [] then runsByAux p rest [] else acc.reverse :: runsByAux p rest []

/-- Maximal runs of characters satisfying a predicate. -/
def runsBy (p : Char → Bool) (cs : List Char) : List (List Char) := runsByAux p cs []

/-- Maximal runs of word characters. -/
def wordRuns (cs : List Char) : List (List Char) := runsBy isWordChar cs

/-- Tokenisation performed by `re.findall(r'\b[a-zA-Z0-9]{2,}\b', s)`:
a match is a maximal word-character run that consists entirely of ASCII
alphanumerics and has length at least 2 (a run containing an underscore
or bordered by further word characters is rejected by the `\b`
boundaries, so it contributes nothing). -/
def regexWords (cs : List Char) : List (List Char) :=
  (wordRuns cs).filter fun run => 2 ≤ run.length && run.all isAsciiAlnum

/-- Embedding of `extract_keywords` (`evidex/graph.py`): lowercase, take
the regex word tokens, drop stop words.  The Python function returns a
`set`; it is modelled as a first-occurrence-deduplicated list, which is
observationally equivalent at every use site (membership, emptiness and
intersection cardinality). -/
def extract_keywords (text : String) : List String :=
  let words := (regexWords (text.toList.map Char.toLower)).map fun run => String.mk run
  dedupFirst (words.filter fun w => w ∉ STOP_WORDS)

/-! ## Planner (`evidex/graph.py`, `planner_node`) -/

/-- Structured rendering of the planner's human-readable `reason` string
(debug-only prose in the source; the interpolated data is kept, the
formatting is not). -/
inductive PlannerReason
  | providedIds (count : Nat)
  | noKeywords
  | noMatches (keywords : List String)
  | selected (count : Nat)
deriving DecidableEq

/-- Update dictionary returned by `planner_node`. -/
structure PlannerOut where
  candidate_paragraph_ids : List String
  planner_reason : PlannerReason
  planner_selected_automatically : Bool
deriving DecidableEq

/-- Scored candidate row `(paragraph_id, score, position)` built by the
planner's scoring loop (the `matched_keywords` component is only used for
the reason string and is dropped here). -/
structure ScoredPara where
  pid : String
  score : Nat
  pos : Nat
deriving DecidableEq

/-- Comparator for `scored_paragraphs.sort(key=lambda x: (-x[1], x[2]))`:
descending score, ascending position. -/
def plannerKeyLe (a b : ScoredPara) : Bool :=
  if a.score = b.score then a.pos ≤ b.pos else b.score < a.score

/-- Scoring loop of the planner: every paragraph in document order is
scored by the size of the keyword intersection and kept when positive. -/
def scoredParagraphs (doc : Document) (qkw : List String) : List ScoredPara :=
  (docParagraphs doc).enum.filterMap fun pp =>
    let pkw := extract_keywords pp.2.text
    let score := (qkw.filter fun w => w ∈ pkw).length
    if score > 0 then some ⟨pp.2.paragraph_id, score, pp.1⟩ else none

/-- Embedding of `planner_node` (`evidex/graph.py`).  The state fields the
node reads are its arguments; the returned update dictionary is the
result. -/
def planner_node (document : Document) (question : String)
    (paragraph_ids : List String) : PlannerOut :=
  if paragraph_ids ≠ [] then
    { candidate_paragraph_ids := paragraph_ids
      planner_reason := .providedIds paragraph_ids.length
      planner_selected_automatically := false }
  else
    let question_keywords := extract_keywords question
    if question_keywords = [] then
      { candidate_paragraph_ids := []
        planner_reason := .noKeywords
        planner_selected_automatically := true }
    else
      let scored := scoredParagraphs document question_keywords
      if scored = [] then
        { candidate_paragraph_ids := []
          planner_reason := .noMatches question_keywords
          planner_selected_automatically := true }
      else
        let sorted := sortLe plannerKeyLe scored
        let selected_ids := (sorted.map ScoredPara.pid).take 10
        { candidate_paragraph_ids := selected_ids
          planner_reason := .selected selected_ids.length
          planner_selected_automatically := true }

/-! ## Language-model client (`evidex/llm.py`, `LLMInterface` / `MockLLM`) -/

/-- Raw response from the language model.  The provider metadata field
`raw` is never read by the pipeline and is omitted. -/
structure LLMResponse where
  content : String
deriving DecidableEq

/-- The language-model client: an abstract provider behaviour plus the
`call_history` invocation log that every concrete implementation in
`evidex/llm.py` maintains (`MockLLM.call_history`, `GroqLLM.call_history`). -/
structure LLM where
  respond : String → String
  call_history : List String

/-- Embedding of `generate`: record the prompt in the invocation log and
produce the provider's response.  Mutation of the client object is
modelled by threading the updated client. -/
def LLM.generate (llm : LLM) (prompt : String) : LLMResponse × LLM :=
  (⟨llm.respond prompt⟩, ⟨llm.respond, llm.call_history ++ [prompt]⟩)

/-! ## Structured-object extraction (`evidex/llm.py`) -/

/-- Failure modes of `extract_json_block`, matching its three `raise`
sites: no opening brace, end of text with open nesting, closing brace at
depth zero. -/
inductive JErr
  | noJson
  | unterminated
  | extraClose
deriving DecidableEq

/-- Character loop of `extract_json_block`: state is the remaining text,
the brace nesting depth (`len(stack)`), the `in_string` flag and the
`escape_next` flag.  On success it returns the consumed prefix, i.e.
`text[start:i+1]`. -/
def scanObj : List Char → Nat → Bool → Bool → Except JErr (List Char)
  | [], _, _, _ => .error .unterminated
  | c :: rest, depth, ins, esc =>
    if esc then (scanObj rest depth ins false).map (c :: ·)
    else if c = '\\' then (scanObj rest depth ins true).map (c :: ·)
    else if c = '"' then (scanObj rest depth (!ins) esc).map (c :: ·)
    else if !ins && c = '{' then (scanObj rest (depth + 1) ins esc).map (c :: ·)
    else if !ins && c = '}' then
      if depth = 0 then .error .extraClose
      else if depth = 1 then .ok [c]
      else (scanObj rest (depth - 1) ins esc).map (c :: ·)
    else (scanObj rest depth ins esc).map (c :: ·)

/-- Embedding of `extract_json_block`: find the first `\x7b`, then run the
balanced scan from it. -/
def extract_json_block (text : List Char) : Except JErr (List Char) :=
  let suf := text.dropWhile (fun c => c ≠ '{')
  if suf = [] then .error .noJson else scanObj suf 0 false false

/-- Failure value of `safe_parse_json`'s final `raise ValueError`, which
wraps either an extraction error or a decode error on the extracted block. -/
inductive ParseFail
  | fromExtract (e : JErr)
  | fromDecode
deriving DecidableEq

/-- Marker of the json-annotated fenced block. -/
def fenceJsonMarker : List Char := "```json".toList

/-- Marker of an anonymous fenced block. -/
def fenceMarker : List Char := "```".toList

/-- Embedding of `safe_parse_json`.  The JSON decoder `jl` (the standard
library's `json.loads`) and the fenced-block regex searches `fencedJson`
(pattern  three backticks, `json`, `\s*\n?(.*?)\n?`, three backticks) and
`fencedAny` (same without the `json` tag) are external standard-library
collaborators passed as parameters; the branch structure, the substring
guards (Python `in`), the `strip` calls and the final fallback chain are
the embedded source logic. -/
def safe_parse_json {J : Type} (fencedJson fencedAny : List Char → Option (List Char))
    (jl : List Char → Option J) (content : List Char) : Except ParseFail J :=
  let content := stripChars content
  match jl content with
  | some v => .ok v
  | none =>
    let fenced : Option J :=
      if occursIn fenceJsonMarker content then
        match fencedJson content with
        | some g => jl (stripChars g)
        | none => none
      else if occursIn fenceMarker content then
        match fencedAny content with
        | some g => jl (stripChars g)
        | none => none
      else none
    match fenced with
    | some v => .ok v
    | none =>
      match extract_json_block content with
      | .error e => .error (.fromExtract e)
      | .ok s =>
        match jl s with
        | some v => .ok v
        | none => .error .fromDecode

/-- Fields of the decoded Explainer response that the pipeline reads
(`parsed.get("answer", ...)`, `parsed.get("citations", [])`); a missing
key is `none` and the `.get` default is applied at the use site. -/
structure ParsedLLM where
  answer : Option String
  citations : Option (List String)
deriving DecidableEq

/-- The canonical refusal string. -/
def canonicalRefusal : String := "Not defined in the paper"

/-! ## Prompt construction (`evidex/qa.py`) -/

/-- The Explainer system prompt, verbatim from `evidex/qa.py` (braces are
written as escapes). -/
def SYSTEM_PROMPT : String :=
  "You are a research paper analysis assistant. Your ONLY task is to answer questions using EXCLUSIVELY the provided document content.\n" ++
  "\n" ++
  "CRITICAL RULES - YOU MUST FOLLOW THESE EXACTLY:\n" ++
  "1. You may ONLY use information that is EXPLICITLY stated in the provided paragraphs and equations.\n" ++
  "2. You must NEVER use any external knowledge, even if you know the answer from training.\n" ++
  "3. If a concept, term, or fact is NOT defined or explained in the provided text, you MUST respond with \"Not defined in the paper\".\n" ++
  "4. Every claim in your answer MUST be directly traceable to the provided paragraphs or equations.\n" ++
  "5. You MUST ALWAYS include citations in your response.\n" ++
  "   - ALWAYS cite the paragraph IDs you used to formulate your answer\n" ++
  "   - Even for summaries or explanations, cite ALL paragraphs you reference\n" ++
  "   - NEVER return an answer without citations unless the answer is exactly \"Not defined in the paper\"\n" ++
  "6. If you are uncertain whether the text supports the answer, set confidence to \"low\".\n" ++
  "7. EQUATIONS are provided separately and are CRITICAL to understanding. Do NOT simplify or modify equations.\n" ++
  "\n" ++
  "RESPONSE FORMAT - You MUST respond with ONLY a JSON object, no other text:\n" ++
  "\n" ++
  "Example 1 (specific question):\n" ++
  "Question: \"What is attention?\"\n" ++
  "Paragraph [p1]: \"Attention is a mechanism...\"\n" ++
  "Response:\n" ++
  "\x7b\n" ++
  "    \"answer\": \"Attention is a mechanism...\",\n" ++
  "    \"citations\": [\"p1\"],\n" ++
  "    \"confidence\": \"high\"\n" ++
  "\x7d\n" ++
  "\n" ++
  "Example 2 (explanation request):\n" ++
  "Question: \"Explain this section\"\n" ++
  "Paragraph [s1_p7]: \"The model uses convolutional layers...\"\n" ++
  "Response:\n" ++
  "\x7b\n" ++
  "    \"answer\": \"This section describes convolutional layers and their computational complexity...\",\n" ++
  "    \"citations\": [\"s1_p7\"],\n" ++
  "    \"confidence\": \"low\"\n" ++
  "\x7d\n" ++
  "\n" ++
  "Example 3 (not found):\n" ++
  "Question: \"What is quantum computing?\"\n" ++
  "Paragraph [p1]: \"Deep learning uses neural networks...\"\n" ++
  "Response:\n" ++
  "\x7b\n" ++
  "    \"answer\": \"Not defined in the paper\",\n" ++
  "    \"citations\": [],\n" ++
  "    \"confidence\": \"low\"\n" ++
  "\x7d\n" ++
  "\n" ++
  "RESPONSE SCHEMA:\n" ++
  "\x7b\n" ++
  "    \"answer\": string,\n" ++
  "    \"citations\": [string],  // REQUIRED unless answer is \"Not defined in the paper\"\n" ++
  "    \"confidence\": \"high\" | \"low\"\n" ++
  "\x7d\n" ++
  "\n" ++
  "Do not include any text outside the JSON object."

/-- Embedding of `build_context_block`. -/
def build_context_block (paragraphs : List Paragraph) : String :=
  if paragraphs = [] then "No paragraphs provided."
  else String.intercalate "\n\n"
    (paragraphs.map fun p => "[" ++ p.paragraph_id ++ "]\n" ++ p.text)

/-- Embedding of `build_equations_block`. -/
def build_equations_block (equations : List Equation) : String :=
  if equations = [] then ""
  else String.intercalate "\n\n"
    (equations.map fun eq =>
      "[" ++ eq.equation_id ++ "] (from " ++ eq.associated_paragraph_id ++ ")\n" ++ eq.equation_text)

/-- Embedding of `build_prompt`. -/
def build_prompt (context : String) (question : String) (equations_context : String) : String :=
  let equations_section :=
    if equations_context ≠ "" then
      "\n=== EQUATIONS ===\nThe following equations are critical to understanding the document content.\nDo NOT simplify or modify these equations - they must be preserved exactly.\n\n"
        ++ equations_context ++ "\n=== END EQUATIONS ===\n"
    else ""
  SYSTEM_PROMPT ++ "\n\n=== DOCUMENT CONTENT ===\n" ++ context
    ++ "\n=== END DOCUMENT CONTENT ===\n" ++ equations_section
    ++ "\nQUESTION: " ++ question
    ++ "\n\nCRITICAL: You MUST respond with valid JSON including citations array.\n\nExample Response Format:\n\x7b\n    \"answer\": \"Your answer summarizing the content from the paragraphs above\",\n    \"citations\": [\"s1_p7\"],\n    \"confidence\": \"low\"\n\x7d\n\nNow provide your response as JSON:"

/-! ## Final response and Verifier (`evidex/graph.py`) -/

/-- Factors listed in the verifier's confidence reasoning. -/
inductive ConfFactor
  | noCitations
  | manualParagraphs
deriving DecidableEq

/-- Structured rendering of the verifier's `reason` string. -/
inductive VerifierReason
  | rejectedNoCitations
  | rejectedInvalidCitations (invalid : List String) (valid : List String)
  | passed (isNotDefined : Bool) (citations : List String) (factors : List ConfFactor)
deriving DecidableEq

/-- Debug payload attached when `include_debug` is set. -/
structure DebugInfo where
  planner_reason : PlannerReason
  verifier_reason : VerifierReason
deriving DecidableEq

/-- The `final_response` dictionary: answer, citations, and the
confidence / debug keys that are only present once the Verifier has run. -/
structure FinalResponse where
  answer : String
  citations : List String
  confidence : Option String := none
  debug : Option DebugInfo := none
deriving DecidableEq

/-- Update dictionary returned by `explain_node`. -/
structure ExplainOut where
  llm_response : Option LLMResponse
  final_response : FinalResponse
deriving DecidableEq

/-- The prompt `explain_node` sends for a non-empty paragraph list:
context block, optional equations block, question. -/
def explainPrompt (paragraphs : List Paragraph) (equations : List Equation)
    (question : String) : String :=
  let context := build_context_block paragraphs
  let equations_context := if equations ≠ [] then build_equations_block equations else ""
  build_prompt context question equations_context

/-- Embedding of `explain_node` (`evidex/graph.py`).  A raised
`ValueError` from response parsing is the `.error` result; the mutated
language-model client is threaded alongside. -/
def explain_node (paragraphs : List Paragraph) (equations : List Equation) (question : String)
    (fencedJson fencedAny : List Char → Option (List Char))
    (jl : List Char → Option ParsedLLM) (llm : LLM) :
    Except ParseFail ExplainOut × LLM :=
  if paragraphs = [] then
    (.ok { llm_response := none
           final_response := { answer := canonicalRefusal, citations := [] } }, llm)
  else
    let prompt := explainPrompt paragraphs equations question
    let (response, llm') := llm.generate prompt
    match safe_parse_json fencedJson fencedAny jl response.content.toList with
    | .error e => (.error e, llm')
    | .ok parsed =>
      let valid_paragraph_ids := paragraphs.map Paragraph.paragraph_id
      let valid_citations := (parsed.citations.getD []).filter fun cid => cid ∈ valid_paragraph_ids
      (.ok { llm_response := some response
             final_response := { answer := parsed.answer.getD canonicalRefusal
                                 citations := valid_citations } }, llm')

/-- Update dictionary returned by `verifier_node`. -/
structure VerifierOut where
  final_response : FinalResponse
  verification_passed : Bool
  verifier_reason : VerifierReason
deriving DecidableEq

/-- Embedding of `verifier_node` (`evidex/graph.py`): Rule A (substantive
answer without citations), Rule B (citation outside the retrieved
paragraph-id set), then system-derived confidence. -/
def verifier_node (final_response : FinalResponse) (paragraphs : List Paragraph)
    (include_debug : Bool) (planner_selected_automatically : Bool)
    (planner_reason : PlannerReason) : VerifierOut :=
  let answer := final_response.answer
  let citations := final_response.citations
  let valid_paragraph_ids := paragraphs.map Paragraph.paragraph_id
  let is_not_defined := answer = canonicalRefusal
  let has_citations := citations.length > 0
  if ¬is_not_defined ∧ ¬has_citations then
    let reason := VerifierReason.rejectedNoCitations
    { final_response := { answer := canonicalRefusal, citations := []
                          confidence := some "low"
                          debug := if include_debug then some ⟨planner_reason, reason⟩ else none }
      verification_passed := false
      verifier_reason := reason }
  else
    let invalid_citations := citations.filter fun cid => cid ∉ valid_paragraph_ids
    if invalid_citations ≠ [] then
      let reason := VerifierReason.rejectedInvalidCitations invalid_citations
        (sortLe strLe (dedupFirst valid_paragraph_ids))
      { final_response := { answer := canonicalRefusal, citations := []
                            confidence := some "low"
                            debug := if include_debug then some ⟨planner_reason, reason⟩ else none }
        verification_passed := false
        verifier_reason := reason }
    else
      let confidence := if has_citations ∧ planner_selected_automatically then "high" else "low"
      let factors :=
        (if ¬has_citations then [ConfFactor.noCitations] else [])
          ++ (if ¬planner_selected_automatically then [ConfFactor.manualParagraphs] else [])
      let reason := VerifierReason.passed is_not_defined citations factors
      { final_response := { final_response with
                            confidence := some confidence
                            debug := if include_debug then some ⟨planner_reason, reason⟩
                                     else final_response.debug }
        verification_passed := true
        verifier_reason := reason }

/-! ## Composer (`evidex/graph.py`) -/

/-- One entry of `linked_evidence`: member ids plus the shared entities
(the `shared_entities` sub-dictionary is flattened into two fields). -/
structure EvidenceLink where
  source_ids : List String
  shared_vars : List String
  shared_concepts : List String
deriving DecidableEq

/-- The composer system prompt, verbatim from `evidex/graph.py` (braces
written as escapes). -/
def COMPOSER_SYSTEM_PROMPT : String :=
  "You are a research paper explanation composer. Your task is to compose a clear, grounded explanation by ONLY paraphrasing the provided verified evidence.\n" ++
  "\n" ++
  "CRITICAL RULES - YOU MUST FOLLOW THESE EXACTLY:\n" ++
  "1. You may ONLY paraphrase existing evidence - do NOT introduce new information.\n" ++
  "2. Every sentence MUST cite exactly one source using format: \"Statement. [source_id]\"\n" ++
  "3. You may NOT introduce new entities (variables, concepts) not present in the evidence.\n" ++
  "4. You may NOT make claims that combine information in ways not supported by the evidence.\n" ++
  "5. You may NOT add assumptions, implications, or conclusions beyond what is stated.\n" ++
  "6. You may NOT use any external knowledge.\n" ++
  "7. If the evidence is insufficient, compose what you can and cite appropriately.\n" ++
  "\n" ++
  "Format each sentence as:\n" ++
  "\"Paraphrased statement from source. [source_id]\"\n" ++
  "\n" ++
  "You must respond ONLY with a JSON object in this exact format:\n" ++
  "\x7b\n" ++
  "    \"composed_explanation\": \"First sentence. [source_id_1] Second sentence. [source_id_2]\",\n" ++
  "    \"sentences\": [\n" ++
  "        \x7b\"text\": \"First sentence.\", \"citation\": \"source_id_1\"\x7d,\n" ++
  "        \x7b\"text\": \"Second sentence.\", \"citation\": \"source_id_2\"\x7d\n" ++
  "    ]\n" ++
  "\x7d\n" ++
  "\n" ++
  "Do not include any text outside the JSON object."

/-- Embedding of `build_composer_prompt`. -/
def build_composer_prompt (paragraphs : List Paragraph) (equations : List Equation)
    (linked_evidence : List EvidenceLink) (question : String) : String :=
  let evidence_blocks :=
    (paragraphs.map fun p => "[" ++ p.paragraph_id ++ "] (paragraph)\n" ++ p.text)
      ++ (equations.map fun eq =>
            "[" ++ eq.equation_id ++ "] (equation from " ++ eq.associated_paragraph_id ++ ")\n"
              ++ eq.equation_text)
  let evidence_text :=
    if evidence_blocks ≠ [] then String.intercalate "\n\n" evidence_blocks
    else "No evidence provided."
  let links_text :=
    if linked_evidence ≠ [] then
      let link_descriptions := linked_evidence.map fun link =>
        let source_ids := String.intercalate ", " link.source_ids
        let shared_items := link.shared_vars ++ link.shared_concepts
        let shared_str := if shared_items ≠ [] then String.intercalate ", " shared_items else "none"
        "  - Sources [" ++ source_ids ++ "] share: " ++ shared_str
      "\n\n=== LINKED EVIDENCE ===\nThe following evidence is connected:\n"
        ++ String.intercalate "\n" link_descriptions ++ "\n=== END LINKED EVIDENCE ==="
    else ""
  COMPOSER_SYSTEM_PROMPT ++ "\n\n=== VERIFIED EVIDENCE ===\n" ++ evidence_text
    ++ "\n=== END VERIFIED EVIDENCE ===" ++ links_text
    ++ "\n\nQUESTION: " ++ question
    ++ "\n\nCompose an explanation using ONLY the verified evidence above. Each sentence must cite its source.\n\nJSON Response:"

/-- One `{"text": ..., "citation": ...}` sentence entry; the source reads
the keys through `.get` with default `""`, so a missing key is the empty
string. -/
structure SentenceItem where
  text : String
  citation : String
deriving DecidableEq

/-- Fields of the decoded composer response the source reads
(`parsed.get("composed_explanation", "")`, `parsed.get("sentences", [])`). -/
structure ComposedParsed where
  composed_explanation : Option String
  sentences : Option (List SentenceItem)
deriving DecidableEq

/-- Parsed composer output after defaults are applied. -/
structure ComposerParseOut where
  composed_explanation : String
  sentences : List SentenceItem
deriving DecidableEq

/-- Embedding of `parse_composer_response` (`evidex/graph.py`): optional
fenced-block replacement, `strip`, then the `find('\x7b')` / `rfind('\x7d')`
slice handed to the JSON decoder, with an empty fallback on every failure
path.  As before the regex searches and the JSON decoder are
standard-library collaborators passed as parameters. -/
def parse_composer_response (fencedJson fencedAny : List Char → Option (List Char))
    (jl : List Char → Option ComposedParsed) (response : LLMResponse) : ComposerParseOut :=
  let text := response.content.toList
  let text :=
    if occursIn fenceJsonMarker text then
      match fencedJson text with
      | some g => g
      | none => text
    else if occursIn fenceMarker text then
      match fencedAny text with
      | some g => g
      | none => text
    else text
  let text := stripChars text
  match text.findIdx? (fun c => c = '{'), text.reverse.findIdx? (fun c => c = '}') with
  | some s, some rj =>
    let e := text.length - rj
    if s < e then
      match jl ((text.drop s).take (e - s)) with
      | some parsed =>
        { composed_explanation := parsed.composed_explanation.getD ""
          sentences := parsed.sentences.getD [] }
      | none => { composed_explanation := "", sentences := [] }
    else { composed_explanation := "", sentences := [] }
  | _, _ => { composed_explanation := "", sentences := [] }

/-- The closed vocabulary of technical concepts the composer verifier
checks, verbatim from the source. -/
def TECHNICAL_CONCEPTS : List String :=
  ["attention", "transformer", "encoder", "decoder", "embedding",
   "softmax", "layer normalization", "dropout", "residual",
   "multi-head", "self-attention", "cross-attention", "positional encoding",
   "feedforward", "bleu", "bleu score", "perplexity", "accuracy"]

/-- Structured rendering of the composer verifier's `reason` string (the
`missingCitation` payload keeps the sentence index and the 50-character
display prefix of its text). -/
inductive ComposerVerifyReason
  | noSentences
  | missingCitation (idx : Nat) (shown : String)
  | invalidCitation (citation : String) (valid : List String)
  | newVariable (v : String)
  | newTechnicalConcept (c : String)
  | passedOk (count : Nat)
deriving DecidableEq

/-- The union of entities over the supplied evidence built by
`verify_composed_explanation`: per paragraph the pre-computed entities
when present (else the extractor on its text), per equation the extractor
on its text; variables and concepts are pooled into one set. -/
def allowedEntities (extract : String → Entities) (paragraphs : List Paragraph)
    (equations : List Equation) : List String :=
  (paragraphs.map fun p =>
    match p.entities with
    | some e => e.vars ++ e.concepts
    | none => (extract p.text).vars ++ (extract p.text).concepts).flatten
  ++ (equations.map fun eq => (extract eq.equation_text).vars ++ (extract eq.equation_text).concepts).flatten

/-- First failure of the per-sentence citation checks (empty citation,
then unknown citation), in sentence order. -/
def firstCitationFailure (valid_source_ids : List String) : Nat → List SentenceItem →
    Option ComposerVerifyReason
  | _, [] => none
  | i, sent :: rest =>
    if sent.citation = "" then
      some (.missingCitation (i + 1) (String.mk (sent.text.toList.take 50)))
    else if ¬ sent.citation ∈ valid_source_ids then
      some (.invalidCitation sent.citation (sortLe strLe (dedupFirst valid_source_ids)))
    else firstCitationFailure valid_source_ids (i + 1) rest

/-- First failure of the per-sentence entity checks: a detected variable
outside the allowed set, else a detected technical concept outside the
allowed set, in sentence order. -/
def firstEntityFailure (extract : String → Entities) (allowed : List String) :
    List SentenceItem → Option ComposerVerifyReason
  | [] => none
  | sent :: rest =>
    let se := extract sent.text
    match se.vars.find? fun v => ¬ v ∈ allowed with
    | some v => some (.newVariable v)
    | none =>
      match se.concepts.find? fun c => c ∈ TECHNICAL_CONCEPTS ∧ ¬ c ∈ allowed with
      | some c => some (.newTechnicalConcept c)
      | none => firstEntityFailure extract allowed rest

/-- Embedding of `verify_composed_explanation` (`evidex/graph.py`). -/
def verify_composed_explanation (extract : String → Entities) (sentences : List SentenceItem)
    (valid_source_ids : List String) (paragraphs : List Paragraph) (equations : List Equation) :
    Bool × ComposerVerifyReason :=
  if sentences = [] then (false, .noSentences)
  else
    match firstCitationFailure valid_source_ids 0 sentences with
    | some r => (false, r)
    | none =>
      let allowed := allowedEntities extract paragraphs equations
      match firstEntityFailure extract allowed sentences with
      | some r => (false, r)
      | none => (true, .passedOk sentences.length)

/-! ## Workflow state and the node update dictionaries
(`evidex/graph.py`, `QAState` / `create_qa_graph`) -/

/-- One contribution to the accumulated `verifier_reason` string; the
source concatenates prose, modelled as appending structured items. -/
inductive ReasonItem
  | verifier (r : VerifierReason)
  | composer (r : ComposerVerifyReason)
deriving DecidableEq

/-- The `QAState` dictionary threaded through the graph.  The language
model client is part of the state (`llm` key); its in-place mutation is
modelled by the updated field. -/
structure QAState where
  document : Document
  paragraph_ids : List String
  question : String
  include_debug : Bool
  candidate_paragraph_ids : List String
  planner_selected_automatically : Bool
  paragraphs : List Paragraph
  equations : List Equation
  llm_response : Option LLMResponse
  planner_reason : PlannerReason
  verifier_reason : List ReasonItem
  final_response : FinalResponse
  verification_passed : Bool
  linked_evidence : List EvidenceLink
  composed_explanation : Option String
  composer_verification_passed : Bool
  llm : LLM

/-- The merge of `verifier_node`'s returned update dictionary into the
state. -/
def verifierNodeUpdate (s : QAState) : QAState :=
  let out := verifier_node s.final_response s.paragraphs s.include_debug
    s.planner_selected_automatically s.planner_reason
  { s with final_response := out.final_response
           verification_passed := out.verification_passed
           verifier_reason := [.verifier out.verifier_reason] }

/-- Embedding of `composer_node` (`evidex/graph.py`) as the merge of its
returned update dictionary into the state: the no-evidence branch writes
`composed_explanation` and `composer_verification_passed` only (and never
invokes the model); the other branches additionally append to
`verifier_reason` and record the model invocation. -/
def composerNodeUpdate (extract : String → Entities)
    (fencedJson fencedAny : List Char → Option (List Char))
    (jl : List Char → Option ComposedParsed) (s : QAState) : QAState :=
  if s.paragraphs = [] ∧ s.equations = [] then
    { s with composed_explanation := none
             composer_verification_passed := false }
  else
    let valid_source_ids :=
      s.paragraphs.map Paragraph.paragraph_id ++ s.equations.map Equation.equation_id
    let prompt := build_composer_prompt s.paragraphs s.equations s.linked_evidence s.question
    let (response, llm') := s.llm.generate prompt
    let parsed := parse_composer_response fencedJson fencedAny jl response
    let vr := verify_composed_explanation extract parsed.sentences valid_source_ids
      s.paragraphs s.equations
    if vr.1 then
      { s with composed_explanation := some parsed.composed_explanation
               composer_verification_passed := vr.1
               verifier_reason := s.verifier_reason ++ [.composer vr.2]
               llm := llm' }
    else
      { s with composed_explanation := none
               composer_verification_passed := false
               verifier_reason := s.verifier_reason ++ [.composer vr.2]
               llm := llm' }

/-! ## Evidence Linker (`evidex/graph.py`, `evidence_linker_node`)

The `evidence_entities` dictionary is modelled as an association list in
insertion order (paragraphs, then equations); under the Document
invariant that ids are globally unique this is exactly the dictionary.
Python iterates the *sets* of evidence ids per entity in unspecified
order; the embedding determinises them to first-insertion order, which is
immaterial because the connected components produced are independent of
the union order (the correctness theorem below holds for the arbitrary
pair list fed to the fold). -/

/-- Entity table `{id: {"variables": ..., "concepts": ...}}` built by the
linker: pre-computed paragraph entities when present, else the extractor;
equations always go through the extractor. -/
def evidenceEntities (extract : String → Entities) (paragraphs : List Paragraph)
    (equations : List Equation) : List (String × Entities) :=
  (paragraphs.map fun p =>
    (p.paragraph_id, match p.entities with
                     | some e => e
                     | none => extract p.text))
    ++ equations.map fun eq => (eq.equation_id, extract eq.equation_text)

/-- Lookup in the entity table (total; ids are always present at call
sites). -/
def entLookup (tbl : List (String × Entities)) (eid : String) : Entities :=
  match tbl.find? fun kv => kv.1 = eid with
  | some kv => kv.2
  | none => ⟨[], []⟩

/-- Evidence ids whose entity set (under the projection `f`) contains a
given entity, in table order — the value sets of `variable_to_evidence` /
`concept_to_evidence`. -/
def evidenceOf (tbl : List (String × Entities)) (f : Entities → List String) (e : String) :
    List String :=
  tbl.filterMap fun kv => if e ∈ f kv.2 then some kv.1 else none

/-- Keys of the entity-to-evidence map in first-insertion order. -/
def entityKeys (tbl : List (String × Entities)) (f : Entities → List String) : List String :=
  dedupFirst ((tbl.map fun kv => dedupFirst (f kv.2)).flatten)

/-- The star of union calls issued for one entity:
`union(eids_list[0], eids_list[i])` for each later member. -/
def starPairs : List String → List (String × String)
  | [] => []
  | x :: rest => rest.map fun y => (x, y)

/-- All union calls issued by the linker: stars of the variable map, then
stars of the concept map. -/
def unionPairs (tbl : List (String × Entities)) : List (String × String) :=
  ((entityKeys tbl Entities.vars).map fun e => starPairs (evidenceOf tbl Entities.vars e)).flatten
    ++ ((entityKeys tbl Entities.concepts).map fun e =>
          starPairs (evidenceOf tbl Entities.concepts e)).flatten

/-- Embedding of the recursive `find` with path compression.  Python's
recursion is unbounded and terminates by acyclicity of the parent forest;
the embedding receives explicit fuel, and the development proves that
`|all_ids|` fuel always suffices under the maintained invariant. -/
def findCompress (p : String → String) : Nat → String → String × (String → String)
  | 0, x => (x, p)
  | fuel + 1, x =>
    if p x = x then (x, p)
    else
      let rp := findCompress p fuel (p x)
      (rp.1, fun y => if y = x then rp.1 else rp.2 y)

/-- Embedding of `union`: find both roots (with compression), link the
first root under the second when distinct. -/
def unionStep (fuel : Nat) (p : String → String) (pair : String × String) : String → String :=
  let r1 := findCompress p fuel pair.1
  let r2 := findCompress r1.2 fuel pair.2
  if r1.1 ≠ r2.1 then fun y => if y = r1.1 then r2.1 else r2.2 y
  else r2.2

/-- The grouping loop: `find` every id (still compressing) and append it
to its root's bucket; buckets appear in first-seen-root order. -/
def addToBucket : List (String × List String) → String → String → List (String × List String)
  | [], root, eid => [(root, [eid])]
  | (r, xs) :: rest, root, eid =>
    if r = root then (r, xs ++ [eid]) :: rest
    else (r, xs) :: addToBucket rest root eid

/-- Fold of the grouping loop over the id list. -/
def groupByRoot (fuel : Nat) : List String → (String → String) →
    List (String × List String) → (String → String) × List (String × List String)
  | [], p, comps => (p, comps)
  | eid :: rest, p, comps =>
    let rp := findCompress p fuel eid
    groupByRoot fuel rest rp.2 (addToBucket comps rp.1 eid)

/-- Entities shared by a component: those occurring in at least two of
its members, sorted. -/
def sharedOf (tbl : List (String × Entities)) (f : Entities → List String)
    (source_ids : List String) : List String :=
  let keys := dedupFirst ((source_ids.map fun eid => dedupFirst (f (entLookup tbl eid))).flatten)
  sortLe strLe (keys.filter fun v =>
    2 ≤ (source_ids.filter fun eid => v ∈ f (entLookup tbl eid)).length)

/-- Embedding of `evidence_linker_node` (`evidex/graph.py`). -/
def evidence_linker_node (extract : String → Entities) (paragraphs : List Paragraph)
    (equations : List Equation) : List EvidenceLink :=
  if paragraphs = [] ∧ equations = [] then []
  else
    let tbl := evidenceEntities extract paragraphs equations
    let all_ids := tbl.map Prod.fst
    if all_ids.length < 2 then []
    else
      let fuel := all_ids.length
      let p := (unionPairs tbl).foldl (unionStep fuel) fun x => x
      let comps := (groupByRoot fuel all_ids p []).2
      comps.filterMap fun rc =>
        if rc.2.length < 2 then none
        else some { source_ids := sortLe strLe rc.2
                    shared_vars := sharedOf tbl Entities.vars rc.2
                    shared_concepts := sharedOf tbl Entities.concepts rc.2 }

/-- The merge of `evidence_linker_node`'s returned update dictionary into
the state. -/
def evidenceLinkerUpdate (extract : String → Entities) (s : QAState) : QAState :=
  { s with linked_evidence := evidence_linker_node extract s.paragraphs s.equations }

/-! ## Claim C3 — refusal without model call -/

/-- C3: whenever the Retriever hands the Explainer zero paragraphs,
`explain_node` returns exactly the canonical refusal value (answer
`"Not defined in the paper"`, empty citations) and the language-model
client is untouched — in particular its invocation log, hence its
invocation counter, is unchanged. -/
theorem explainRefusesWithoutModelCall (equations : List Equation) (question : String)
    (fencedJson fencedAny : List Char → Option (List Char))
    (jl : List Char → Option ParsedLLM) (llm : LLM) :
    explain_node [] equations question fencedJson fencedAny jl llm
      = (.ok { llm_response := none
               final_response := { answer := "Not defined in the paper", citations := [] } }, llm)
    ∧ (explain_node [] equations question fencedJson fencedAny jl llm).2.call_history
        = llm.call_history := by
  constructor <;> rfl

/-! ## Claim C9 — rejection idempotence of the Verifier -/

/-- C9: feeding the Verifier a final response equal to its own rejected
output (canonical refusal, empty citations, low confidence) yields a
final response whose answer, citations and confidence are identical to
the input's. -/
theorem verifierRejectionIdempotent (paragraphs : List Paragraph)
    (include_debug auto : Bool) (pr : PlannerReason) (d : Option DebugInfo) :
    (verifier_node { answer := canonicalRefusal, citations := []
                     confidence := some "low", debug := d }
        paragraphs include_debug auto pr).final_response.answer = canonicalRefusal
    ∧ (verifier_node { answer := canonicalRefusal, citations := []
                       confidence := some "low", debug := d }
        paragraphs include_debug auto pr).final_response.citations = []
    ∧ (verifier_node { answer := canonicalRefusal, citations := []
                       confidence := some "low", debug := d }
        paragraphs include_debug auto pr).final_response.confidence = some "low" := by
  refine ⟨?_, ?_, ?_⟩ <;> simp [verifier_node]

/-! ## Claim C1 — the Verifier's rejection rules and confidence policy -/

/-- C1: the Verifier rejects exactly when Rule A (substantive answer with
empty citations) or Rule B (some citation outside the retrieved-evidence
id set) fires; on rejection the final response is overwritten to the
refusal answer with empty citations, confidence `"low"` and
`passed = false`; otherwise `passed = true` and the confidence is
`"high"` exactly when the citations are non-empty and the evidence was
auto-selected by the Planner, and `"low"` otherwise. -/
theorem verifierRejectsExactlyByRules (fr : FinalResponse) (paragraphs : List Paragraph)
    (include_debug auto : Bool) (pr : PlannerReason) :
    (¬ ((verifier_node fr paragraphs include_debug auto pr).verification_passed = true)
        ↔ ((fr.answer ≠ canonicalRefusal ∧ fr.citations = [])
            ∨ ∃ c ∈ fr.citations, c ∉ paragraphs.map Paragraph.paragraph_id))
    ∧ (((fr.answer ≠ canonicalRefusal ∧ fr.citations = [])
          ∨ ∃ c ∈ fr.citations, c ∉ paragraphs.map Paragraph.paragraph_id) →
        (verifier_node fr paragraphs include_debug auto pr).final_response.answer = canonicalRefusal
        ∧ (verifier_node fr paragraphs include_debug auto pr).final_response.citations = []
        ∧ (verifier_node fr paragraphs include_debug auto pr).final_response.confidence = some "low"
        ∧ (verifier_node fr paragraphs include_debug auto pr).verification_passed = false)
    ∧ (¬ ((fr.answer ≠ canonicalRefusal ∧ fr.citations = [])
          ∨ ∃ c ∈ fr.citations, c ∉ paragraphs.map Paragraph.paragraph_id) →
        (verifier_node fr paragraphs include_debug auto pr).verification_passed = true
        ∧ ((verifier_node fr paragraphs include_debug auto pr).final_response.confidence = some "high"
            ↔ fr.citations ≠ [] ∧ auto = true)
        ∧ ((verifier_node fr paragraphs include_debug auto pr).final_response.confidence = some "high"
            ∨ (verifier_node fr paragraphs include_debug auto pr).final_response.confidence = some "low")) := by
  have hfilt : ((fr.citations.filter fun cid =>
      cid ∉ paragraphs.map Paragraph.paragraph_id) ≠ []) ↔
      (∃ c ∈ fr.citations, c ∉ paragraphs.map Paragraph.paragraph_id) := by
    rw [Ne, List.filter_eq_nil_iff]
    push_neg
    simp
  have hcond1 : (¬ (fr.answer = canonicalRefusal) ∧ ¬ (fr.citations.length > 0)) ↔
      (fr.answer ≠ canonicalRefusal ∧ fr.citations = []) := by
    simp [List.length_pos]
  simp only [verifier_node]
  by_cases hA' : fr.answer ≠ canonicalRefusal ∧ fr.citations = []
  · rw [if_pos (hcond1.mpr hA')]
    refine ⟨?_, ?_, ?_⟩
    · simp [hA']
    · intro _; exact ⟨rfl, rfl, rfl, rfl⟩
    · intro hcon; exact absurd (Or.inl hA') hcon
  · rw [if_neg (fun h => hA' (hcond1.mp h))]
    by_cases hB : ∃ c ∈ fr.citations, c ∉ paragraphs.map Paragraph.paragraph_id
    · rw [if_pos (hfilt.mpr hB)]
      refine ⟨?_, ?_, ?_⟩
      · simp
        exact Or.inr (by simpa using hB)
      · intro _; exact ⟨rfl, rfl, rfl, rfl⟩
      · intro hcon; exact absurd (Or.inr hB) hcon
    · rw [if_neg (fun h => hB (hfilt.mp h))]
      refine ⟨?_, ?_, ?_⟩
      · simp [hA']
        intro x hx
        have hmem : x ∈ List.map Paragraph.paragraph_id paragraphs := by
          by_contra hxx
          exact hB ⟨x, hx, hxx⟩
        simpa using hmem
      · intro h
        rcases h with h | h
        · exact absurd h hA'
        · exact absurd h hB
      · intro _
        refine ⟨rfl, ?_, ?_⟩
        · by_cases hca : fr.citations.length > 0 ∧ auto = true
          · rw [if_pos hca]
            simp [List.length_pos.mp hca.1, hca.2]
          · rw [if_neg hca]
            constructor
            · intro hh
              exact absurd (Option.some.inj hh) (by decide)
            · rintro ⟨h1, h2⟩
              exact absurd ⟨List.length_pos.mpr h1, h2⟩ hca
        · by_cases hca : fr.citations.length > 0 ∧ auto = true
          · rw [if_pos hca]; left; rfl
          · rw [if_neg hca]; right; rfl

/-- Witness for C1 at a concrete input: a substantive answer with no
citations is rejected to the refusal with empty citations, low
confidence, `passed = false`. -/
theorem verifierRejectsExactlyByRulesWitness :
    (verifier_node { answer := "Substantive claim", citations := [] } [] false true
        .noKeywords).final_response.answer = canonicalRefusal
    ∧ (verifier_node { answer := "Substantive claim", citations := [] } [] false true
        .noKeywords).final_response.confidence = some "low"
    ∧ (verifier_node { answer := "Substantive claim", citations := [] } [] false true
        .noKeywords).verification_passed = false := by
  have h := verifierRejectsExactlyByRules { answer := "Substantive claim", citations := [] }
    [] false true .noKeywords
  have hr := h.2.1 (Or.inl ⟨by decide, rfl⟩)
  exact ⟨hr.1, hr.2.2.1, hr.2.2.2⟩

/-! ## Claim C10 — the Composer stage never touches the final response -/

/-- C10: `composer_node` writes only `composed_explanation`,
`composer_verification_passed` and an appended `verifier_reason` (plus
the in-place model-client mutation); every other state field — in
particular the `final_response` produced by the Verifier and the
`verification_passed` flag — is left exactly as it was, both for the
node in isolation and across the verify → evidence-linker → composer
tail of the pipeline. -/
theorem composerWritesOnlyItsOwnFields (extract : String → Entities)
    (fencedJson fencedAny : List Char → Option (List Char))
    (jl : List Char → Option ComposedParsed) (s : QAState) :
    ((composerNodeUpdate extract fencedJson fencedAny jl s).final_response = s.final_response)
    ∧ ((composerNodeUpdate extract fencedJson fencedAny jl s).verification_passed
        = s.verification_passed)
    ∧ ((composerNodeUpdate extract fencedJson fencedAny jl s).document = s.document)
    ∧ ((composerNodeUpdate extract fencedJson fencedAny jl s).paragraph_ids = s.paragraph_ids)
    ∧ ((composerNodeUpdate extract fencedJson fencedAny jl s).question = s.question)
    ∧ ((composerNodeUpdate extract fencedJson fencedAny jl s).include_debug = s.include_debug)
    ∧ ((composerNodeUpdate extract fencedJson fencedAny jl s).candidate_paragraph_ids
        = s.candidate_paragraph_ids)
    ∧ ((composerNodeUpdate extract fencedJson fencedAny jl s).planner_selected_automatically
        = s.planner_selected_automatically)
    ∧ ((composerNodeUpdate extract fencedJson fencedAny jl s).paragraphs = s.paragraphs)
    ∧ ((composerNodeUpdate extract fencedJson fencedAny jl s).equations = s.equations)
    ∧ ((composerNodeUpdate extract fencedJson fencedAny jl s).llm_response = s.llm_response)
    ∧ ((composerNodeUpdate extract fencedJson fencedAny jl s).planner_reason = s.planner_reason)
    ∧ ((composerNodeUpdate extract fencedJson fencedAny jl s).linked_evidence = s.linked_evidence)
    ∧ ((composerNodeUpdate extract fencedJson fencedAny jl s).verifier_reason = s.verifier_reason
        ∨ ∃ r, (composerNodeUpdate extract fencedJson fencedAny jl s).verifier_reason
            = s.verifier_reason ++ [ReasonItem.composer r])
    ∧ ((composerNodeUpdate extract fencedJson fencedAny jl
          (evidenceLinkerUpdate extract (verifierNodeUpdate s))).final_response
        = (verifierNodeUpdate s).final_response) := by
  have frame : ∀ t : QAState,
      (composerNodeUpdate extract fencedJson fencedAny jl t).final_response = t.final_response := by
    intro t
    simp only [composerNodeUpdate]
    split
    · rfl
    · split <;> rfl
  refine ⟨frame s, ?_, ?_, ?_, ?_, ?_, ?_, ?_, ?_, ?_, ?_, ?_, ?_, ?_, ?_⟩
  · simp only [composerNodeUpdate]; split
    · rfl
    · split <;> rfl
  · simp only [composerNodeUpdate]; split
    · rfl
    · split <;> rfl
  · simp only [composerNodeUpdate]; split
    · rfl
    · split <;> rfl
  · simp only [composerNodeUpdate]; split
    · rfl
    · split <;> rfl
  · simp only [composerNodeUpdate]; split
    · rfl
    · split <;> rfl
  · simp only [composerNodeUpdate]; split
    · rfl
    · split <;> rfl
  · simp only [composerNodeUpdate]; split
    · rfl
    · split <;> rfl
  · simp only [composerNodeUpdate]; split
    · rfl
    · split <;> rfl
  · simp only [composerNodeUpdate]; split
    · rfl
    · split <;> rfl
  · simp only [composerNodeUpdate]; split
    · rfl
    · split <;> rfl
  · simp only [composerNodeUpdate]; split
    · rfl
    · split <;> rfl
  · simp only [composerNodeUpdate]; split
    · rfl
    · split <;> rfl
  · simp only [composerNodeUpdate]; split
    · exact Or.inl rfl
    · split
      · exact Or.inr ⟨_, rfl⟩
      · exact Or.inr ⟨_, rfl⟩
  · rw [frame]
    rfl

/-! ## Claim C2 — the Explainer's citation filter -/

/-- C2 (amended): for a non-empty paragraph list, the Explainer's
citation filter keeps exactly those citations of the parsed model answer
that are among the supplied *paragraph* ids — a citation equal to a
supplied equation id is dropped — so the returned citations are a subset
of the supplied paragraph ids and a fortiori of the evidence ids
supplied to the model in that call. -/
theorem explainCitationFilterKeepsParagraphIds
    (paragraphs : List Paragraph) (equations : List Equation) (question : String)
    (fencedJson fencedAny : List Char → Option (List Char))
    (jl : List Char → Option ParsedLLM) (llm : LLM) (parsed : ParsedLLM)
    (hne : paragraphs ≠ [])
    (hp : safe_parse_json fencedJson fencedAny jl
        (llm.respond (explainPrompt paragraphs equations question)).toList = .ok parsed) :
    ∃ out : ExplainOut,
      (explain_node paragraphs equations question fencedJson fencedAny jl llm).1 = .ok out
      ∧ out.final_response.citations
          = (parsed.citations.getD []).filter (fun c => c ∈ paragraphs.map Paragraph.paragraph_id)
      ∧ (∀ c ∈ out.final_response.citations, c ∈ paragraphs.map Paragraph.paragraph_id)
      ∧ (∀ c ∈ out.final_response.citations,
          c ∈ paragraphs.map Paragraph.paragraph_id ++ equations.map Equation.equation_id) := by
  simp only [explain_node, if_neg hne, LLM.generate]
  rw [hp]
  refine ⟨_, rfl, rfl, ?_, ?_⟩
  · intro c hc
    exact of_decide_eq_true (List.mem_filter.mp hc).2
  · intro c hc
    exact List.mem_append_left _ (of_decide_eq_true (List.mem_filter.mp hc).2)

/-- Concrete paragraph used by the citation-filter counterexample. -/
def cexPara : Paragraph := { paragraph_id := "p1", text := "Attention uses Q." }

/-- Concrete equation used by the citation-filter counterexample. -/
def cexEq : Equation :=
  { equation_id := "eq1", equation_text := "Q K", associated_paragraph_id := "p1" }

/-- JSON decoder for the counterexample: the model's draft cites both the
equation and the paragraph. -/
def cexJl : List Char → Option ParsedLLM :=
  fun _ => some { answer := some "Ans", citations := some ["eq1", "p1"] }

/-- Model client for the counterexample. -/
def cexLLM : LLM := { respond := fun _ => "resp", call_history := [] }

/-- Counterexample to C2 as stated: the draft answer cites the supplied
equation id `"eq1"`; the claim says a citation equal to a supplied
equation id survives filtering, but `explain_node` keeps only `"p1"` —
the equation citation is dropped. -/
theorem explainDropsEquationCitation :
    (explain_node [cexPara] [cexEq] "q" (fun _ => none) (fun _ => none) cexJl cexLLM).1
      = .ok { llm_response := some ⟨"resp"⟩
              final_response := { answer := "Ans", citations := ["p1"] } }
    ∧ "eq1" ∈ ["eq1", "p1"]
    ∧ "eq1" ∈ ([cexPara].map Paragraph.paragraph_id ++ [cexEq].map Equation.equation_id)
    ∧ "eq1" ∉
        (match (explain_node [cexPara] [cexEq] "q" (fun _ => none) (fun _ => none) cexJl cexLLM).1 with
         | .ok o => o.final_response.citations
         | .error _ => []) := by
  refine ⟨by decide, by decide, by decide, by decide⟩

/-- Witness for the amended C2 at the counterexample input: the filter
result is exactly the paragraph-id filtrate of the parsed citations. -/
theorem explainCitationFilterKeepsParagraphIdsWitness :
    ∃ out : ExplainOut,
      (explain_node [cexPara] [cexEq] "q" (fun _ => none) (fun _ => none) cexJl cexLLM).1 = .ok out
      ∧ out.final_response.citations
          = ((["eq1", "p1"] : List String).filter
              (fun c => c ∈ [cexPara].map Paragraph.paragraph_id))
      ∧ (∀ c ∈ out.final_response.citations, c ∈ [cexPara].map Paragraph.paragraph_id)
      ∧ (∀ c ∈ out.final_response.citations,
          c ∈ [cexPara].map Paragraph.paragraph_id ++ [cexEq].map Equation.equation_id) := by
  exact explainCitationFilterKeepsParagraphIds [cexPara] [cexEq] "q" (fun _ => none) (fun _ => none)
    cexJl cexLLM { answer := some "Ans", citations := some ["eq1", "p1"] } (by decide) (by decide)

/-! ## Claim C8 — surfacing of malformed model output -/

/-- Correspondence of the boolean substring test with `List.IsInfix`. -/
theorem occursIn_iff_contiguous {α : Type} [DecidableEq α] (pat : List α) (l : List α) :
    occursIn pat l = true ↔ pat <:+: l := by
  induction l with
  | nil => simp [occursIn, List.infix_nil]
  | cons x rest ih =>
    simp [occursIn, List.isPrefixOf_iff_prefix, ih, List.infix_cons_iff]

/-- Stripping whitespace yields a contiguous sublist. -/
theorem stripChars_contiguous (t : List Char) : stripChars t <:+: t := by
  unfold stripChars
  have h1 : t.dropWhile isPyWS <:+ t := List.dropWhile_suffix _
  have h2 : (t.dropWhile isPyWS).reverse.dropWhile isPyWS <:+ (t.dropWhile isPyWS).reverse :=
    List.dropWhile_suffix _
  have h3 : ((t.dropWhile isPyWS).reverse.dropWhile isPyWS).reverse <+: t.dropWhile isPyWS := by
    have := h2
    rw [show (t.dropWhile isPyWS).reverse.dropWhile isPyWS
        = ((t.dropWhile isPyWS).reverse.dropWhile isPyWS).reverse.reverse by simp] at this
    exact List.reverse_suffix.mp this
  exact h3.isInfix.trans h1.isInfix
/-- A pattern occurring in a stripped text occurs in the text. -/
theorem occursIn_strip_mono {pat t : List Char} (h : occursIn pat (stripChars t) = true) :
    occursIn pat t = true :=
  (occursIn_iff_contiguous pat t).mpr (((occursIn_iff_contiguous pat (stripChars t)).mp h).trans
    (stripChars_contiguous t))

/-- C8 (amended): on model output in which no structured object can be
located (no opening brace after stripping, no fenced block, direct decode
fails), the Explainer's parse path surfaces a parse error, but the
Composer's parse path does NOT: it silently falls back to an empty parsed
result, which the composer verifier then rejects, so the composer yields
a null narrative (`composed_explanation = none`,
`composer_verification_passed = false`) instead of an error. -/
theorem malformedOutputExplainerErrorsComposerFallsBack (content : String)
    (fencedJson fencedAny : List Char → Option (List Char))
    (jl : List Char → Option ParsedLLM) (jlC : List Char → Option ComposedParsed)
    (extract : String → Entities) (s : QAState)
    (hbrace : '{' ∉ stripChars content.toList)
    (hfj : occursIn fenceJsonMarker content.toList = false)
    (hf : occursIn fenceMarker content.toList = false)
    (hjl : jl (stripChars content.toList) = none)
    (hresp : s.llm.respond
        (build_composer_prompt s.paragraphs s.equations s.linked_evidence s.question) = content)
    (hev : ¬ (s.paragraphs = [] ∧ s.equations = [])) :
    safe_parse_json fencedJson fencedAny jl content.toList = .error (.fromExtract .noJson)
    ∧ parse_composer_response fencedJson fencedAny jlC ⟨content⟩
        = { composed_explanation := "", sentences := [] }
    ∧ (composerNodeUpdate extract fencedJson fencedAny jlC s).composed_explanation = none
    ∧ (composerNodeUpdate extract fencedJson fencedAny jlC s).composer_verification_passed
        = false := by
  have hfjs : occursIn fenceJsonMarker (stripChars content.toList) = false := by
    by_contra h
    rw [Bool.not_eq_false] at h
    rw [occursIn_strip_mono h] at hfj
    exact Bool.true_eq_false.mp hfj
  have hfs : occursIn fenceMarker (stripChars content.toList) = false := by
    by_contra h
    rw [Bool.not_eq_false] at h
    rw [occursIn_strip_mono h] at hf
    exact Bool.true_eq_false.mp hf
  have hdrop : (stripChars content.toList).dropWhile (fun c => c ≠ '{') = [] := by
    rw [List.dropWhile_eq_nil_iff]
    intro x hx
    simp only [ne_eq, decide_eq_true_eq]
    intro hxe
    exact hbrace (hxe ▸ hx)
  have hextract : extract_json_block (stripChars content.toList) = .error .noJson := by
    simp only [extract_json_block]
    rw [hdrop]
    rfl
  simp only [String.toList] at hbrace hfj hf hjl hfjs hfs hdrop hextract
  have hsafe : safe_parse_json fencedJson fencedAny jl content.toList
      = .error (.fromExtract .noJson) := by
    simp [safe_parse_json, String.toList, hjl, hfjs, hfs, hextract]
  have hfind : (stripChars content.toList).findIdx? (fun c => c = '{') = none := by
    rw [List.findIdx?_eq_none_iff]
    intro x hx
    have hne : ¬ x = '{' := fun hxe => hbrace (hxe ▸ hx)
    simp [hne]
  simp only [String.toList] at hfind
  have hparse : parse_composer_response fencedJson fencedAny jlC ⟨content⟩
      = { composed_explanation := "", sentences := [] } := by
    simp [parse_composer_response, String.toList, hfj, hf, hfind]
  refine ⟨hsafe, hparse, ?_, ?_⟩ <;>
  · simp only [composerNodeUpdate, if_neg hev, LLM.generate, hresp, hparse]
    simp [verify_composed_explanation]

/-- Concrete workflow state for the malformed-output counterexample: the
model answers prose that contains no structured object. -/
def cexMalformedState : QAState :=
  { document := ⟨"T", [], []⟩
    paragraph_ids := []
    question := "q"
    include_debug := false
    candidate_paragraph_ids := []
    planner_selected_automatically := true
    paragraphs := [cexPara]
    equations := []
    llm_response := none
    planner_reason := .noKeywords
    verifier_reason := []
    final_response := { answer := "A", citations := ["p1"] }
    verification_passed := true
    linked_evidence := []
    composed_explanation := none
    composer_verification_passed := false
    llm := { respond := fun _ => "This is not JSON at all", call_history := [] } }

/-- Counterexample to C8 as stated: on the unparseable model output
`"This is not JSON at all"` the Explainer's parse path does surface a
parse error, but the Composer's parse path returns the silent empty
fallback instead of an error, and the composer node converts it into an
empty rejected narrative. -/
theorem composerParsePathSilentFallback :
    safe_parse_json (fun _ => none) (fun _ => none) (fun _ => (none : Option ParsedLLM))
        "This is not JSON at all".toList = .error (.fromExtract .noJson)
    ∧ parse_composer_response (fun _ => none) (fun _ => none) (fun _ => none)
        ⟨"This is not JSON at all"⟩ = { composed_explanation := "", sentences := [] }
    ∧ (composerNodeUpdate (fun _ => ⟨[], []⟩) (fun _ => none) (fun _ => none) (fun _ => none)
        cexMalformedState).composed_explanation = none
    ∧ (composerNodeUpdate (fun _ => ⟨[], []⟩) (fun _ => none) (fun _ => none) (fun _ => none)
        cexMalformedState).composer_verification_passed = false := by
  refine ⟨by decide, by decide, by decide, by decide⟩

/-- Witness for the amended C8 at the concrete malformed output. -/
theorem malformedOutputPathsWitness :
    safe_parse_json (fun _ => none) (fun _ => none) (fun _ => (none : Option ParsedLLM))
        "This is not JSON at all".toList = .error (.fromExtract .noJson)
    ∧ parse_composer_response (fun _ => none) (fun _ => none)
        (fun _ => (none : Option ComposedParsed)) ⟨"This is not JSON at all"⟩
        = { composed_explanation := "", sentences := [] }
    ∧ (composerNodeUpdate (fun _ => (⟨[], []⟩ : Entities)) (fun _ => none) (fun _ => none)
        (fun _ => none) cexMalformedState).composed_explanation = none
    ∧ (composerNodeUpdate (fun _ => (⟨[], []⟩ : Entities)) (fun _ => none) (fun _ => none)
        (fun _ => none) cexMalformedState).composer_verification_passed = false := by
  exact malformedOutputExplainerErrorsComposerFallsBack "This is not JSON at all"
    (fun _ => none) (fun _ => none) (fun _ => none) (fun _ => none) (fun _ => ⟨[], []⟩)
    cexMalformedState (by decide) (by decide) (by decide) rfl rfl (by decide)

/-! ## Claim C4 — composer entity leakage -/

/-- Variable-entity union across the supplied evidence following the
claim's words (variables only, pre-computed paragraph entities when
present): the set the claim says sentence variables are checked against. -/
def varEntityUnion (extract : String → Entities) (paragraphs : List Paragraph)
    (equations : List Equation) : List String :=
  (paragraphs.map fun p =>
    match p.entities with
    | some e => e.vars
    | none => (extract p.text).vars).flatten
  ++ (equations.map fun eq => (extract eq.equation_text).vars).flatten

/-- An entity-check pass means every detected variable of every sentence
is in the allowed pool. -/
theorem firstEntityFailure_none {extract : String → Entities} {allowed : List String} :
    ∀ sentences, firstEntityFailure extract allowed sentences = none →
      ∀ sent ∈ sentences, ∀ v ∈ (extract sent.text).vars, v ∈ allowed := by
  intro sentences
  induction sentences with
  | nil =>
    intro _ s hs
    cases hs
  | cons sent rest ih =>
    intro h s hs v hv
    rw [firstEntityFailure] at h
    rcases hfind : (extract sent.text).vars.find? fun v => ¬ v ∈ allowed with _ | w
    · rw [hfind] at h
      rcases hfind2 : (extract sent.text).concepts.find? fun c =>
          c ∈ TECHNICAL_CONCEPTS ∧ ¬ c ∈ allowed with _ | w2
      · rw [hfind2] at h
        rcases List.mem_cons.mp hs with hs' | hs'
        · subst hs'
          by_contra hva
          have hnone := List.find?_eq_none.mp hfind v hv
          simp [hva] at hnone
        · exact ih h s hs' v hv
      · rw [hfind2] at h
        cases h
    · rw [hfind] at h
      cases h

/-- C4 (amended): if any composed sentence's text contains a detected
variable-entity that is outside the union of variable-entities AND
concept-entities across all supplied paragraphs and equations (the
`allowed_entities` pool), then verification fails and the composed
narrative is discarded entirely — `composed_explanation` is `none` and
the composer pass flag is `false` — regardless of how many other
sentences were valid. -/
theorem composerRejectsNewVariables (extract : String → Entities)
    (fencedJson fencedAny : List Char → Option (List Char))
    (jl : List Char → Option ComposedParsed) (s : QAState)
    (h : ∃ sent ∈ (parse_composer_response fencedJson fencedAny jl
          ⟨s.llm.respond (build_composer_prompt s.paragraphs s.equations
              s.linked_evidence s.question)⟩).sentences,
        ∃ v ∈ (extract sent.text).vars,
          v ∉ allowedEntities extract s.paragraphs s.equations) :
    (verify_composed_explanation extract
        (parse_composer_response fencedJson fencedAny jl
          ⟨s.llm.respond (build_composer_prompt s.paragraphs s.equations
              s.linked_evidence s.question)⟩).sentences
        (s.paragraphs.map Paragraph.paragraph_id ++ s.equations.map Equation.equation_id)
        s.paragraphs s.equations).1 = false
    ∧ (composerNodeUpdate extract fencedJson fencedAny jl s).composed_explanation = none
    ∧ (composerNodeUpdate extract fencedJson fencedAny jl s).composer_verification_passed
        = false := by
  obtain ⟨sent, hsent, v, hv, hvn⟩ := h
  have hne : (parse_composer_response fencedJson fencedAny jl
      ⟨s.llm.respond (build_composer_prompt s.paragraphs s.equations
          s.linked_evidence s.question)⟩).sentences ≠ [] := by
    intro hnil
    rw [hnil] at hsent
    cases hsent
  have hfail : (verify_composed_explanation extract
      (parse_composer_response fencedJson fencedAny jl
        ⟨s.llm.respond (build_composer_prompt s.paragraphs s.equations
            s.linked_evidence s.question)⟩).sentences
      (s.paragraphs.map Paragraph.paragraph_id ++ s.equations.map Equation.equation_id)
      s.paragraphs s.equations).1 = false := by
    rw [verify_composed_explanation, if_neg hne]
    rcases hcit : firstCitationFailure
        (s.paragraphs.map Paragraph.paragraph_id ++ s.equations.map Equation.equation_id) 0
        (parse_composer_response fencedJson fencedAny jl
          ⟨s.llm.respond (build_composer_prompt s.paragraphs s.equations
              s.linked_evidence s.question)⟩).sentences with _ | r
    · rcases hent : firstEntityFailure extract
          (allowedEntities extract s.paragraphs s.equations)
          (parse_composer_response fencedJson fencedAny jl
            ⟨s.llm.respond (build_composer_prompt s.paragraphs s.equations
                s.linked_evidence s.question)⟩).sentences with _ | r2
      · exact absurd (firstEntityFailure_none _ hent sent hsent v hv) hvn
      · dsimp only
        rw [hent]
    · rfl
  refine ⟨hfail, ?_, ?_⟩ <;>
  · by_cases hev : s.paragraphs = [] ∧ s.equations = []
    · simp [composerNodeUpdate, hev]
    · simp only [composerNodeUpdate, if_neg hev, LLM.generate]
      rw [if_neg (by rw [hfail]; exact Bool.false_ne_true)]

/-- Paragraph whose ingested entities are variable `"Layer"` (case kept)
and concept `"layer"` (lower-cased), as `evidex/entities.py` produces for
the text `"The Layer structure"`. -/
def cexLayerPara : Paragraph :=
  { paragraph_id := "p1", text := "The Layer structure"
    entities := some ⟨["Layer"], ["layer"]⟩ }

/-- Entity extractor behaviour on the composed sentence text `"layer"`,
matching `evidex/entities.py` (the `layer` pattern is a variable match
with original case kept, and `layer` is a concept keyword). -/
def cexLayerExtract : String → Entities :=
  fun t => if t = "layer" then ⟨["layer"], ["layer"]⟩ else ⟨[], []⟩

/-- Decoder and state for the entity-leakage counterexample: the model
composes the single sentence `"layer"` citing `p1`. -/
def cexLayerJl : List Char → Option ComposedParsed :=
  fun cs => if cs = "{x}".toList then some ⟨some "layer. [p1]", some [⟨"layer", "p1"⟩]⟩ else none

/-- Workflow state for the entity-leakage counterexample. -/
def cexLayerState : QAState :=
  { document := ⟨"T", [], []⟩
    paragraph_ids := []
    question := "q"
    include_debug := false
    candidate_paragraph_ids := []
    planner_selected_automatically := true
    paragraphs := [cexLayerPara]
    equations := []
    llm_response := none
    planner_reason := .noKeywords
    verifier_reason := []
    final_response := { answer := "A", citations := ["p1"] }
    verification_passed := true
    linked_evidence := []
    composed_explanation := none
    composer_verification_passed := false
    llm := { respond := fun _ => "{x}", call_history := [] } }

/-- Counterexample to C4 as stated: the composed sentence `"layer"`
contains the detected variable `"layer"`, which is NOT in the union of
variable-entities of the supplied evidence (the only variable is
`"Layer"`, and the comparison is exact-string), yet verification passes
and the narrative is returned — because the source checks variables
against the pooled variables-and-concepts set, and `"layer"` is an
evidence concept. -/
theorem composerKeepsVariableMatchingConcept :
    (verify_composed_explanation cexLayerExtract [⟨"layer", "p1"⟩] ["p1"] [cexLayerPara] []).1
      = true
    ∧ "layer" ∈ (cexLayerExtract "layer").vars
    ∧ "layer" ∉ varEntityUnion cexLayerExtract [cexLayerPara] []
    ∧ (composerNodeUpdate cexLayerExtract (fun _ => none) (fun _ => none) cexLayerJl
        cexLayerState).composed_explanation = some "layer. [p1]"
    ∧ (composerNodeUpdate cexLayerExtract (fun _ => none) (fun _ => none) cexLayerJl
        cexLayerState).composer_verification_passed = true := by
  refine ⟨by decide, by decide, by decide, by decide, by decide⟩

/-- Decoder for the witness of the amended C4: the sentence `"layer"`
cites `p1`, but the supplied paragraph carries no entities at all. -/
def cexLeakState : QAState :=
  { cexLayerState with paragraphs := [cexPara] }

/-- Witness for the amended C4: with evidence whose pooled entity set is
empty, the composed sentence variable `"layer"` is new, verification
fails and the narrative is discarded. -/
theorem composerRejectsNewVariablesWitness :
    (verify_composed_explanation cexLayerExtract
        (parse_composer_response (fun _ => none) (fun _ => none) cexLayerJl
          ⟨cexLeakState.llm.respond (build_composer_prompt cexLeakState.paragraphs
              cexLeakState.equations cexLeakState.linked_evidence cexLeakState.question)⟩).sentences
        (cexLeakState.paragraphs.map Paragraph.paragraph_id
          ++ cexLeakState.equations.map Equation.equation_id)
        cexLeakState.paragraphs cexLeakState.equations).1 = false
    ∧ (composerNodeUpdate cexLayerExtract (fun _ => none) (fun _ => none) cexLayerJl
        cexLeakState).composed_explanation = none
    ∧ (composerNodeUpdate cexLayerExtract (fun _ => none) (fun _ => none) cexLayerJl
        cexLeakState).composer_verification_passed = false := by
  exact composerRejectsNewVariables cexLayerExtract (fun _ => none) (fun _ => none) cexLayerJl
    cexLeakState (by decide)

/-! ## Claim C6 — the Planner pipeline -/

/-- Insertion keeps the multiset of elements. -/
theorem insertLe_perm {α : Type} (le : α → α → Bool) (x : α) (l : List α) :
    (insertLe le x l).Perm (x :: l) := by
  induction l with
  | nil => exact List.Perm.refl _
  | cons y ys ih =>
    rw [insertLe]
    split
    · exact List.Perm.refl _
    · exact (ih.cons y).trans (List.Perm.swap x y ys)

/-- Sorting keeps the multiset of elements. -/
theorem sortLe_perm {α : Type} (le : α → α → Bool) (l : List α) :
    (sortLe le l).Perm l := by
  induction l with
  | nil => exact List.Perm.refl _
  | cons x xs ih => exact (insertLe_perm le x (sortLe le xs)).trans (ih.cons x)

/-- Membership in an insertion. -/
theorem mem_insertLe {α : Type} {le : α → α → Bool} {x z : α} {l : List α} :
    z ∈ insertLe le x l ↔ z = x ∨ z ∈ l := by
  rw [(insertLe_perm le x l).mem_iff, List.mem_cons]

/-- Insertion preserves sortedness for a total transitive comparator. -/
theorem insertLe_pairwise {α : Type} {le : α → α → Bool}
    (htotal : ∀ a b, le a b = true ∨ le b a = true)
    (htrans : ∀ a b c, le a b = true → le b c = true → le a c = true)
    (x : α) {l : List α} (hl : l.Pairwise fun a b => le a b = true) :
    (insertLe le x l).Pairwise (fun a b => le a b = true) := by
  induction l with
  | nil => simp [insertLe]
  | cons y ys ih =>
    rw [List.pairwise_cons] at hl
    obtain ⟨hy, hys⟩ := hl
    rw [insertLe]
    split
    · rename_i hxy
      rw [List.pairwise_cons]
      refine ⟨?_, List.pairwise_cons.mpr ⟨hy, hys⟩⟩
      intro z hz
      rcases List.mem_cons.mp hz with hz | hz
      · exact hz ▸ hxy
      · exact htrans x y z hxy (hy z hz)
    · rename_i hxy
      rw [List.pairwise_cons]
      refine ⟨?_, ih hys⟩
      intro z hz
      rcases mem_insertLe.mp hz with hz | hz
      · rcases htotal x y with h | h
        · exact absurd h hxy
        · exact hz ▸ h
      · exact hy z hz

/-- Insertion sort sorts, for a total transitive comparator. -/
theorem sortLe_pairwise {α : Type} {le : α → α → Bool}
    (htotal : ∀ a b, le a b = true ∨ le b a = true)
    (htrans : ∀ a b c, le a b = true → le b c = true → le a c = true)
    (l : List α) : (sortLe le l).Pairwise (fun a b => le a b = true) := by
  induction l with
  | nil => simp [sortLe]
  | cons x xs ih => exact insertLe_pairwise htotal htrans x ih

/-- The planner key order in propositional form: strictly greater score,
or equal score and earlier position. -/
theorem plannerKeyLe_iff (a b : ScoredPara) :
    plannerKeyLe a b = true ↔ (b.score < a.score ∨ (a.score = b.score ∧ a.pos ≤ b.pos)) := by
  unfold plannerKeyLe
  split <;> rename_i h <;> simp [h]

/-- The planner key order is total. -/
theorem plannerKeyLe_total (a b : ScoredPara) :
    plannerKeyLe a b = true ∨ plannerKeyLe b a = true := by
  rw [plannerKeyLe_iff, plannerKeyLe_iff]
  omega

/-- The planner key order is transitive. -/
theorem plannerKeyLe_trans (a b c : ScoredPara) (h1 : plannerKeyLe a b = true)
    (h2 : plannerKeyLe b c = true) : plannerKeyLe a c = true := by
  rw [plannerKeyLe_iff] at h1 h2 ⊢
  omega

/-- Membership in first-occurrence deduplication (auxiliary form). -/
theorem mem_dedupFirstAux {α : Type} [DecidableEq α] (x : α) :
    ∀ (l seen : List α), x ∈ dedupFirstAux l seen ↔ x ∈ l ∧ x ∉ seen := by
  intro l
  induction l with
  | nil => intro seen; simp [dedupFirstAux]
  | cons y ys ih =>
    intro seen
    rw [dedupFirstAux]
    by_cases hy : y ∈ seen
    · rw [if_pos hy, ih]
      constructor
      · rintro ⟨hx, hs⟩
        exact ⟨List.mem_cons_of_mem _ hx, hs⟩
      · rintro ⟨hx, hs⟩
        rcases List.mem_cons.mp hx with hx | hx
        · exact absurd (hx ▸ hy) hs
        · exact ⟨hx, hs⟩
    · rw [if_neg hy]
      rw [List.mem_cons, ih]
      constructor
      · rintro (hx | ⟨hx, hs⟩)
        · exact ⟨hx ▸ List.mem_cons_self y ys, hx ▸ hy⟩
        · exact ⟨List.mem_cons_of_mem _ hx, fun hseen => hs (List.mem_cons_of_mem _ hseen)⟩
      · rintro ⟨hx, hs⟩
        rcases List.mem_cons.mp hx with hx | hx
        · exact Or.inl hx
        · by_cases hxy : x = y
          · exact Or.inl hxy
          · exact Or.inr ⟨hx, fun hseen => (List.mem_cons.mp hseen).elim hxy hs⟩

/-- Membership in first-occurrence deduplication. -/
theorem mem_dedupFirst {α : Type} [DecidableEq α] {x : α} {l : List α} :
    x ∈ dedupFirst l ↔ x ∈ l := by
  rw [dedupFirst, mem_dedupFirstAux]
  simp

/-- First-occurrence deduplication produces no duplicates. -/
theorem dedupFirstAux_nodup {α : Type} [DecidableEq α] :
    ∀ (l seen : List α), (dedupFirstAux l seen).Nodup := by
  intro l
  induction l with
  | nil => intro seen; simp [dedupFirstAux]
  | cons y ys ih =>
    intro seen
    rw [dedupFirstAux]
    by_cases hy : y ∈ seen
    · rw [if_pos hy]; exact ih _
    · rw [if_neg hy]
      refine List.nodup_cons.mpr ⟨?_, ih _⟩
      intro hmem
      exact ((mem_dedupFirstAux y ys (y :: seen)).mp hmem).2 (List.mem_cons_self y seen)

/-- First-occurrence deduplication produces no duplicates. -/
theorem dedupFirst_nodup {α : Type} [DecidableEq α] (l : List α) : (dedupFirst l).Nodup :=
  dedupFirstAux_nodup l []

/-- The keyword list of a text has no duplicates (it models a Python set). -/
theorem extract_keywords_nodup (text : String) : (extract_keywords text).Nodup :=
  dedupFirst_nodup _

/-- For a duplicate-free list, counting the members of another list is
the cardinality of the set intersection — the planner's score is the
size of the keyword intersection. -/
theorem filter_mem_length_eq_inter_card {l1 l2 : List String} (h : l1.Nodup) :
    (l1.filter fun w => w ∈ l2).length = (l1.toFinset ∩ l2.toFinset).card := by
  rw [← List.toFinset_card_of_nodup (h.filter _), List.toFinset_filter]
  congr 1
  ext a
  simp [List.mem_toFinset]

/-- Characterisation of the planner's scoring loop: a scored row for
position `pos` exists exactly when the paragraph at that document
position matches at least one question keyword, and its score is the
size of the keyword intersection. -/
theorem scoredParagraphs_mem (doc : Document) (qkw : List String) (sp : ScoredPara) :
    sp ∈ scoredParagraphs doc qkw ↔
      ∃ h : sp.pos < (docParagraphs doc).length,
        ((docParagraphs doc)[sp.pos]).paragraph_id = sp.pid
        ∧ sp.score = (qkw.filter fun w =>
            w ∈ extract_keywords ((docParagraphs doc)[sp.pos]).text).length
        ∧ 0 < sp.score := by
  unfold scoredParagraphs
  rw [List.mem_filterMap]
  constructor
  · rintro ⟨⟨i, p⟩, hmem, hf⟩
    obtain ⟨hi, hp⟩ := List.mem_enum hmem
    dsimp only at hf
    split at hf
    · rename_i hpos
      obtain rfl := Option.some.inj hf
      exact ⟨hi, by rw [← hp], by rw [← hp], hpos⟩
    · cases hf
  · rintro ⟨h, hpid, hscore, hpos⟩
    refine ⟨(sp.pos, (docParagraphs doc)[sp.pos]), ?_, ?_⟩
    · have hlen : sp.pos < (docParagraphs doc).enum.length := by
        rw [List.enum_length]; exact h
      have := List.getElem_enum (docParagraphs doc) (i := sp.pos) (h := hlen)
      rw [← this]
      exact List.getElem_mem hlen
    · dsimp only
      rw [if_pos (hscore ▸ hpos)]
      congr 1
      cases sp with
      | mk pid score pos =>
        dsimp only at hpid hscore ⊢
        rw [hpid, ← hscore]

/-- C6 (amended): the Planner returns a non-empty explicit id list
verbatim with `autoSelected = false`; otherwise it tokenizes the question
with the word-boundary tokenizer (lowercase maximal word-character runs
that consist solely of ASCII alphanumerics and have length at least 2 —
so a token such as `d_model` yields no keywords — minus the stopword
set), returns empty candidates with `autoSelected = true` when no
keywords remain, and otherwise keeps exactly the paragraphs (in document
order) whose keyword-intersection score is positive, sorts them by
descending score with ascending position as tie-break, truncates to the
first 10, and reports `autoSelected = true`. -/
theorem plannerPipelineAmended (doc : Document) (question : String) (provided : List String) :
    (provided ≠ [] →
      planner_node doc question provided
        = { candidate_paragraph_ids := provided
            planner_reason := .providedIds provided.length
            planner_selected_automatically := false })
    ∧ (provided = [] → extract_keywords question = [] →
      planner_node doc question provided
        = { candidate_paragraph_ids := []
            planner_reason := .noKeywords
            planner_selected_automatically := true })
    ∧ (provided = [] → extract_keywords question ≠ [] →
        (planner_node doc question provided).planner_selected_automatically = true
        ∧ (planner_node doc question provided).candidate_paragraph_ids
            = ((sortLe plannerKeyLe (scoredParagraphs doc (extract_keywords question))).map
                ScoredPara.pid).take 10
        ∧ (planner_node doc question provided).candidate_paragraph_ids.length ≤ 10)
    ∧ (sortLe plannerKeyLe (scoredParagraphs doc (extract_keywords question))).Perm
        (scoredParagraphs doc (extract_keywords question))
    ∧ (sortLe plannerKeyLe (scoredParagraphs doc (extract_keywords question))).Pairwise
        (fun a b => b.score < a.score ∨ (a.score = b.score ∧ a.pos ≤ b.pos))
    ∧ (∀ sp ∈ scoredParagraphs doc (extract_keywords question),
        ∃ h : sp.pos < (docParagraphs doc).length,
          ((docParagraphs doc)[sp.pos]).paragraph_id = sp.pid
          ∧ sp.score = ((extract_keywords question).toFinset
              ∩ (extract_keywords ((docParagraphs doc)[sp.pos]).text).toFinset).card
          ∧ 0 < sp.score) := by
  refine ⟨?_, ?_, ?_, sortLe_perm _ _, ?_, ?_⟩
  · intro hp
    rw [planner_node, if_pos hp]
  · intro hp hk
    subst hp
    rw [planner_node, if_neg (by simp), if_pos hk]
  · intro hp hk
    subst hp
    rw [planner_node, if_neg (by simp), if_neg hk]
    rcases hs : scoredParagraphs doc (extract_keywords question) with _ | ⟨sp, rest⟩
    · rw [if_pos rfl]
      refine ⟨rfl, ?_, by simp⟩
      simp [sortLe]
    · rw [if_neg (by simp)]
      refine ⟨rfl, rfl, ?_⟩
      simp [List.length_take]
  · exact (sortLe_pairwise plannerKeyLe_total plannerKeyLe_trans _).imp
      fun h => (plannerKeyLe_iff _ _).mp h
  · intro sp hsp
    obtain ⟨h, hpid, hscore, hpos⟩ := (scoredParagraphs_mem doc _ sp).mp hsp
    exact ⟨h, hpid, by
      rw [hscore]
      exact filter_mem_length_eq_inter_card (extract_keywords_nodup question), hpos⟩

/-- Tokenizer following the claim's literal words: lowercase maximal
ASCII-alphanumeric runs of length at least 2, minus the stopword set (no
word-boundary requirement, so `d_model` yields the keyword `model`). -/
def specTokenizeClaimed (text : String) : List String :=
  dedupFirst ((((runsBy isAsciiAlnum (text.toList.map Char.toLower)).filter
    fun run => 2 ≤ run.length).map fun run => String.mk run).filter fun w => w ∉ STOP_WORDS)

/-- Planner candidate list following the claim's words, with the claimed
tokenizer. -/
def specPlannerClaimed (document : Document) (question : String)
    (paragraph_ids : List String) : List String :=
  if paragraph_ids ≠ [] then paragraph_ids
  else
    let qkw := specTokenizeClaimed question
    if qkw = [] then []
    else
      let scored := (docParagraphs document).enum.filterMap fun pp =>
        let score := (qkw.filter fun w => w ∈ specTokenizeClaimed pp.2.text).length
        if score > 0 then some (⟨pp.2.paragraph_id, score, pp.1⟩ : ScoredPara) else none
      ((sortLe plannerKeyLe scored).map ScoredPara.pid).take 10

/-- Document for the tokenization counterexample. -/
def cexPlannerDoc : Document :=
  ⟨"T", [⟨"S", [{ paragraph_id := "p1", text := "model architecture" }]⟩], []⟩

/-- Counterexample to C6 as stated: on the question `"What is d_model?"`
the claimed tokenization ("alphanumeric runs of length ≥ 2") yields the
keyword `model` and would select paragraph `p1`, but the source's
word-boundary regex produces no keyword at all (the underscore removes
both boundaries), so the Planner returns no candidates. -/
theorem plannerTokenizationDivergence :
    extract_keywords "What is d_model?" = []
    ∧ specTokenizeClaimed "What is d_model?" = ["model"]
    ∧ (planner_node cexPlannerDoc "What is d_model?" []).candidate_paragraph_ids = []
    ∧ specPlannerClaimed cexPlannerDoc "What is d_model?" [] = ["p1"] := by
  refine ⟨by decide, by decide, by decide, by decide⟩

/-- Witness for the amended C6 on a concrete question whose only
non-stopword token is `model`. -/
theorem plannerPipelineAmendedWitness :
    (planner_node cexPlannerDoc "Describe the model" []).planner_selected_automatically = true
    ∧ (planner_node cexPlannerDoc "Describe the model" []).candidate_paragraph_ids
        = ((sortLe plannerKeyLe (scoredParagraphs cexPlannerDoc
            (extract_keywords "Describe the model"))).map ScoredPara.pid).take 10
    ∧ (planner_node cexPlannerDoc "Describe the model" []).candidate_paragraph_ids.length ≤ 10 := by
  exact (plannerPipelineAmended cexPlannerDoc "Describe the model" []).2.2.1 rfl (by decide)

/-! ## Claim C5 — the Structured-Object Extractor -/

/-- Mapped `Except` is `ok` exactly when the underlying value is. -/
theorem exceptMap_ok {ε α β : Type} {f : α → β} {e : Except ε α} {b : β} :
    e.map f = .ok b ↔ ∃ a, e = .ok a ∧ b = f a := by
  cases e with
  | error err => simp [Except.map]
  | ok a => simp [Except.map, eq_comm]

/-- Mapped `Except` keeps errors. -/
theorem exceptMap_error {ε α β : Type} {f : α → β} {e : Except ε α} {err : ε} :
    e.map f = .error err ↔ e = .error err := by
  cases e <;> simp [Except.map]

/-- Scanning is insensitive to text after the returned object: the scan
consumes a prefix and ignores the rest. -/
theorem scanObj_append : ∀ (xs : List Char) (ys : List Char) (d : Nat) (ins esc : Bool)
    (r : List Char), scanObj xs d ins esc = .ok r → scanObj (xs ++ ys) d ins esc = .ok r := by
  intro xs
  induction xs with
  | nil =>
    intro ys d ins esc r h
    rw [scanObj] at h
    cases h
  | cons c rest ih =>
    intro ys d ins esc r h
    rw [scanObj] at h
    rw [List.cons_append, scanObj]
    split_ifs at h ⊢ <;>
      first
      | (obtain ⟨a, ha, rfl⟩ := exceptMap_ok.mp h
         exact exceptMap_ok.mpr ⟨a, ih ys _ _ _ a ha, rfl⟩)
      | exact h

/-- A returned object is a prefix of the scanned text. -/
theorem scanObj_prefix : ∀ (xs : List Char) (d : Nat) (ins esc : Bool) (r : List Char),
    scanObj xs d ins esc = .ok r → r <+: xs := by
  intro xs
  induction xs with
  | nil =>
    intro d ins esc r h
    rw [scanObj] at h
    cases h
  | cons c rest ih =>
    intro d ins esc r h
    rw [scanObj] at h
    split_ifs at h <;>
      first
      | (obtain ⟨a, ha, rfl⟩ := exceptMap_ok.mp h
         exact List.cons_prefix_cons.mpr ⟨rfl, ih _ _ _ a ha⟩)
      | (cases h
         exact ⟨rest, rfl⟩)

/-- A returned object rescans to itself: scanning it from the same state
consumes it entirely and returns it unchanged. -/
theorem scanObj_self : ∀ (xs : List Char) (d : Nat) (ins esc : Bool) (r : List Char),
    scanObj xs d ins esc = .ok r → scanObj r d ins esc = .ok r := by
  intro xs
  induction xs with
  | nil =>
    intro d ins esc r h
    rw [scanObj] at h
    cases h
  | cons c rest ih =>
    intro d ins esc r h
    rw [scanObj] at h
    split_ifs at h <;>
      first
      | (obtain ⟨a, ha, rfl⟩ := exceptMap_ok.mp h
         rw [scanObj]
         split_ifs
         exact exceptMap_ok.mpr ⟨a, ih _ _ _ a ha, rfl⟩)
      | (cases h
         rw [scanObj]
         split_ifs
         rfl)

/-- A returned object is non-empty and ends with the closing brace. -/
theorem scanObj_last : ∀ (xs : List Char) (d : Nat) (ins esc : Bool) (r : List Char),
    scanObj xs d ins esc = .ok r → r ≠ [] ∧ r.getLast? = some '}' := by
  intro xs
  induction xs with
  | nil =>
    intro d ins esc r h
    rw [scanObj] at h
    cases h
  | cons c rest ih =>
    intro d ins esc r h
    rw [scanObj] at h
    split_ifs at h <;>
      first
      | (obtain ⟨a, ha, rfl⟩ := exceptMap_ok.mp h
         obtain ⟨hne, hlast⟩ := ih _ _ _ a ha
         refine ⟨by simp, ?_⟩
         cases a with
         | nil => exact absurd rfl hne
         | cons a0 as => rw [List.getLast?_cons_cons]; exact hlast)
      | (cases h
         refine ⟨by simp, ?_⟩
         simp_all)

/-- The scan never reports the missing-object error. -/
theorem scanObj_ne_noJson : ∀ (xs : List Char) (d : Nat) (ins esc : Bool),
    scanObj xs d ins esc ≠ .error .noJson := by
  intro xs
  induction xs with
  | nil =>
    intro d ins esc h
    rw [scanObj] at h
    cases h
  | cons c rest ih =>
    intro d ins esc h
    rw [scanObj] at h
    split_ifs at h <;>
      first
      | exact ih _ _ _ (exceptMap_error.mp h)
      | cases h

/-- With positive depth the scan never reports the extra-closing-brace
error: once the opening brace has been consumed, depth zero is regained
only at the successful return. -/
theorem scanObj_ne_extraClose : ∀ (xs : List Char) (d : Nat) (ins esc : Bool), 1 ≤ d →
    scanObj xs d ins esc ≠ .error .extraClose := by
  intro xs
  induction xs with
  | nil =>
    intro d ins esc hd h
    rw [scanObj] at h
    cases h
  | cons c rest ih =>
    intro d ins esc hd h
    rw [scanObj] at h
    split_ifs at h <;>
      first
      | exact ih _ _ _ hd (exceptMap_error.mp h)
      | exact ih _ _ _ (by omega) (exceptMap_error.mp h)
      | (rename_i hds; omega)

/-- The brace search comes up empty exactly when there is no opening
brace. -/
theorem dropWhile_brace_eq_nil_iff (t : List Char) :
    t.dropWhile (fun c => c ≠ '{') = [] ↔ '{' ∉ t := by
  rw [List.dropWhile_eq_nil_iff]
  constructor
  · intro h hmem
    have := h '{' hmem
    simp at this
  · intro h x hx
    simp only [ne_eq, decide_eq_true_eq]
    intro hx'
    exact h (hx' ▸ hx)

/-- `extract_json_block` reports the missing-object error exactly when
the text has no opening brace. -/
theorem extract_json_block_noJson_iff (t : List Char) :
    extract_json_block t = .error .noJson ↔ '{' ∉ t := by
  rw [extract_json_block]
  by_cases h : t.dropWhile (fun c => c ≠ '{') = []
  · rw [if_pos h]
    simp [(dropWhile_brace_eq_nil_iff t).mp h]
  · rw [if_neg h]
    constructor
    · intro hs
      exact absurd hs (scanObj_ne_noJson _ _ _ _)
    · intro hmem
      exact absurd ((dropWhile_brace_eq_nil_iff t).mpr hmem) h

/-- `extract_json_block` never reports the extra-closing-brace error:
the scan starts at an opening brace, so depth returns to zero only at
the successful return. -/
theorem extract_json_block_ne_extraClose (t : List Char) :
    extract_json_block t ≠ .error .extraClose := by
  rw [extract_json_block]
  rcases hd : t.dropWhile (fun c => c ≠ '{') with _ | ⟨c, rest⟩
  · rw [if_pos rfl]
    intro h
    cases h
  · rw [if_neg (by simp)]
    have hc : c = '{' := by
      have := List.head?_dropWhile_not (fun c => c ≠ '{') t
      rw [hd] at this
      simp at this
      exact this
    subst hc
    rw [scanObj]
    norm_num
    intro h
    exact scanObj_ne_extraClose rest 1 false false (by omega) (exceptMap_error.mp h)

/-- A block returned by `extract_json_block` is a complete object, never
a truncated one: it starts with the opening brace, ends with the closing
brace, and re-extracting from it returns it unchanged. -/
theorem extract_json_block_ok_self {t s : List Char} (h : extract_json_block t = .ok s) :
    extract_json_block s = .ok s ∧ s.head? = some '{' ∧ s.getLast? = some '}' := by
  rw [extract_json_block] at h
  rcases hd : t.dropWhile (fun c => c ≠ '{') with _ | ⟨c, rest⟩
  · rw [hd, if_pos rfl] at h
    cases h
  · rw [hd, if_neg (by simp)] at h
    have hc : c = '{' := by
      have := List.head?_dropWhile_not (fun c => c ≠ '{') t
      rw [hd] at this
      simp at this
      exact this
    subst hc
    have hself := scanObj_self _ _ _ _ _ h
    have hpre := scanObj_prefix _ _ _ _ _ h
    have hlast := scanObj_last _ _ _ _ _ h
    have hhead : s.head? = some '{' := by
      obtain ⟨u, hu⟩ := hpre
      cases s with
      | nil => exact absurd rfl hlast.1
      | cons s0 ss =>
        rw [List.cons_append] at hu
        rw [List.head?_cons, (List.cons.injEq _ _ _ _).mp hu |>.1]
    refine ⟨?_, hhead, hlast.2⟩
    rw [extract_json_block]
    cases s with
    | nil => exact absurd rfl hlast.1
    | cons s0 ss =>
      have hs0 : s0 = '{' := by
        rw [List.head?_cons] at hhead
        exact Option.some.inj hhead
      subst hs0
      rw [List.dropWhile_cons]
      norm_num
      exact hself

/-- The extractor fails exactly on the enumerated causes: no opening
brace (the missing-object error) or end of text with open nesting (the
unterminated error); the third listed cause, a closing brace at depth
zero, cannot arise from the entry point. -/
theorem extract_json_block_error_iff (t : List Char) :
    (∃ e, extract_json_block t = .error e)
      ↔ ('{' ∉ t ∨ extract_json_block t = .error .unterminated) := by
  constructor
  · rintro ⟨e, he⟩
    cases e
    · exact Or.inl ((extract_json_block_noJson_iff t).mp he)
    · exact Or.inr he
    · exact absurd he (extract_json_block_ne_extraClose t)
  · rintro (h | h)
    · exact ⟨.noJson, (extract_json_block_noJson_iff t).mpr h⟩
    · exact ⟨.unterminated, h⟩

/-- Dropping stops at the first failing element. -/
theorem dropWhile_append_stop {p : Char → Bool} {xs : List Char}
    (hxs : ∀ c ∈ xs, p c = true) {c : Char} (hc : p c = false) (ys : List Char) :
    (xs ++ c :: ys).dropWhile p = c :: ys := by
  induction xs with
  | nil =>
    rw [List.nil_append, List.dropWhile_cons, hc]
    simp
  | cons x xt ih =>
    rw [List.cons_append, List.dropWhile_cons, hxs x (List.mem_cons_self x xt)]
    simp only [if_true]
    exact ih fun a ha => hxs a (List.mem_cons_of_mem x ha)

/-- A complete balanced object is extracted intact out of any text that
embeds it after brace-free leading noise, whatever follows it. -/
theorem extract_json_block_embedded {pre obj post : List Char}
    (hpre : ∀ c ∈ pre, c ≠ '{') (hobj : extract_json_block obj = .ok obj) :
    extract_json_block (pre ++ obj ++ post) = .ok obj := by
  rw [extract_json_block] at hobj
  rcases hd : obj.dropWhile (fun c => c ≠ '{') with _ | ⟨c, rest⟩
  · rw [hd, if_pos rfl] at hobj
    cases hobj
  · rw [hd, if_neg (by simp)] at hobj
    have hc : c = '{' := by
      have := List.head?_dropWhile_not (fun c => c ≠ '{') obj
      rw [hd] at this
      simp at this
      exact this
    subst hc
    have hsuf : ('{' :: rest) <:+ obj := hd ▸ List.dropWhile_suffix _
    have hpref : obj <+: '{' :: rest := scanObj_prefix _ _ _ _ _ hobj
    have heq : obj = '{' :: rest := by
      have h1 := hsuf.length_le
      have h2 := hpref.length_le
      exact (hpref.eq_of_length (le_antisymm h2 h1)).symm ▸ rfl
    rw [extract_json_block]
    have hassoc : pre ++ obj ++ post = pre ++ '{' :: (rest ++ post) := by
      rw [heq]
      simp
    rw [hassoc]
    have hdrop : (pre ++ '{' :: (rest ++ post)).dropWhile (fun c => c ≠ '{')
        = '{' :: (rest ++ post) := by
      refine dropWhile_append_stop ?_ (by simp) _
      intro a ha
      simp only [ne_eq, decide_eq_true_eq]
      exact hpre a ha
    rw [hdrop, if_neg (by simp)]
    have := scanObj_append ('{' :: rest) post 0 false false obj hobj
    rw [List.cons_append] at this
    exact this

/-- Dropping distributes over an append whose right part starts with a
kept element. -/
theorem dropWhile_append_head {p : Char → Bool} {c : Char} (hc : p c = false)
    (xs ys : List Char) : (xs ++ c :: ys).dropWhile p = xs.dropWhile p ++ c :: ys := by
  rw [List.dropWhile_append]
  split
  · rename_i h
    rw [List.isEmpty_iff.mp h, List.dropWhile_cons, hc]
    simp
  · rfl

/-- Stripping a text that embeds a brace-delimited object between noise
leaves the object intact, shrinking only the noise. -/
theorem stripChars_embedded {pre obj post : List Char}
    (hhead : obj.head? = some '{') (hlast : obj.getLast? = some '}') :
    ∃ pre' post', stripChars (pre ++ obj ++ post) = pre' ++ obj ++ post'
      ∧ (∀ c ∈ pre', c ∈ pre) := by
  obtain ⟨objinit, hsplit⟩ := List.getLast?_eq_some_iff.mp hlast
  cases obj with
  | nil => cases hhead
  | cons o0 obtail =>
    have ho0 : o0 = '{' := by
      rw [List.head?_cons] at hhead
      exact Option.some.inj hhead
    subst ho0
    refine ⟨pre.dropWhile isPyWS, ((post.reverse.dropWhile isPyWS)).reverse, ?_, ?_⟩
    · unfold stripChars
      have hA : (pre ++ ('{' :: obtail) ++ post).dropWhile isPyWS
          = pre.dropWhile isPyWS ++ ('{' :: obtail) ++ post := by
        rw [List.append_assoc, List.cons_append,
          dropWhile_append_head (by decide) pre (obtail ++ post)]
        simp
      rw [hA]
      have hB : (pre.dropWhile isPyWS ++ ('{' :: obtail) ++ post).reverse
          = post.reverse ++ ('}' :: (objinit.reverse ++ (pre.dropWhile isPyWS).reverse)) := by
        rw [hsplit]
        simp
      rw [hB, dropWhile_append_head (by decide) post.reverse
        (objinit.reverse ++ (pre.dropWhile isPyWS).reverse)]
      rw [hsplit]
      simp
    · intro c hc
      exact (List.dropWhile_sublist isPyWS).mem hc

/-- C5: the Structured-Object Extractor tries a direct decode, then the
fenced-block strategies, then the brace-balanced scan (depth counter,
inside-string flag, backslash escapes); a complete balanced object
embedded in brace-free leading prose and arbitrary trailing prose is
extracted verbatim, so decoding it equals decoding the object in
isolation; a returned block is always a complete object (it re-extracts
to itself, starts with the opening brace and ends with the closing
brace), and extraction fails exactly on the enumerated causes — no
opening brace, or end of text at positive depth — the third listed
cause (a closing brace at depth zero) being unreachable from the entry
point. -/
theorem structuredExtractorRoundTrip {J : Type}
    (pre obj post : List Char) (fencedJson fencedAny : List Char → Option (List Char))
    (jl : List Char → Option J) (v : J)
    (hpre : ∀ c ∈ pre, c ≠ '{')
    (hobj : extract_json_block obj = .ok obj)
    (hfj : occursIn fenceJsonMarker (pre ++ obj ++ post) = false)
    (hf : occursIn fenceMarker (pre ++ obj ++ post) = false)
    (hdirect : jl (stripChars (pre ++ obj ++ post)) = none)
    (hv : jl obj = some v) :
    safe_parse_json fencedJson fencedAny jl (pre ++ obj ++ post) = .ok v
    ∧ extract_json_block (stripChars (pre ++ obj ++ post)) = .ok obj
    ∧ (∀ t : List Char, extract_json_block t = .error .noJson ↔ '{' ∉ t)
    ∧ (∀ t s : List Char, extract_json_block t = .ok s →
        extract_json_block s = .ok s ∧ s.head? = some '{' ∧ s.getLast? = some '}')
    ∧ (∀ t : List Char, (∃ e, extract_json_block t = .error e)
        ↔ ('{' ∉ t ∨ extract_json_block t = .error .unterminated))
    ∧ (∀ t : List Char, extract_json_block t ≠ .error .extraClose) := by
  have hse := extract_json_block_ok_self hobj
  obtain ⟨pre', post', hstrip, hsub⟩ := stripChars_embedded hse.2.1 hse.2.2
  have hex : extract_json_block (stripChars (pre ++ obj ++ post)) = .ok obj := by
    rw [hstrip]
    exact extract_json_block_embedded (fun c hc => hpre c (hsub c hc)) hobj
  have hfjs : occursIn fenceJsonMarker (stripChars (pre ++ obj ++ post)) = false := by
    by_contra h
    rw [Bool.not_eq_false] at h
    rw [occursIn_strip_mono h] at hfj
    exact Bool.true_eq_false.mp hfj
  have hfs : occursIn fenceMarker (stripChars (pre ++ obj ++ post)) = false := by
    by_contra h
    rw [Bool.not_eq_false] at h
    rw [occursIn_strip_mono h] at hf
    exact Bool.true_eq_false.mp hf
  have hsafe : safe_parse_json fencedJson fencedAny jl (pre ++ obj ++ post) = .ok v := by
    have hd' := hdirect
    have hj' := hfjs
    have hs' := hfs
    have he' := hex
    rw [List.append_assoc] at hd' hj' hs' he'
    simp [safe_parse_json, hd', hj', hs', he', hv]
  exact ⟨hsafe, hex, extract_json_block_noJson_iff,
    fun t s h => extract_json_block_ok_self h,
    extract_json_block_error_iff, extract_json_block_ne_extraClose⟩

/-- The embedded object of the round-trip witness. -/
def witObj : List Char := "\x7b\"a\": [1, \x7b\"b\": 2\x7d]\x7d".toList

/-- A decoder that recognises exactly the witness object. -/
def witJl : List Char → Option Nat := fun cs => if cs = witObj then some 42 else none

/-- Witness for C5 at a concrete embedded object surrounded by prose. -/
theorem structuredExtractorRoundTripWitness :
    safe_parse_json (fun _ => none) (fun _ => none) witJl
        ("Sure! here: ".toList ++ witObj ++ " done".toList) = .ok 42
    ∧ extract_json_block (stripChars ("Sure! here: ".toList ++ witObj ++ " done".toList))
        = .ok witObj
    ∧ (∀ t : List Char, extract_json_block t = .error .noJson ↔ '{' ∉ t)
    ∧ (∀ t s : List Char, extract_json_block t = .ok s →
        extract_json_block s = .ok s ∧ s.head? = some '{' ∧ s.getLast? = some '}')
    ∧ (∀ t : List Char, (∃ e, extract_json_block t = .error e)
        ↔ ('{' ∉ t ∨ extract_json_block t = .error .unterminated))
    ∧ (∀ t : List Char, extract_json_block t ≠ .error .extraClose) := by
  exact structuredExtractorRoundTrip "Sure! here: ".toList witObj " done".toList
    (fun _ => none) (fun _ => none) witJl 42 (by decide) (by decide) (by decide) (by decide)
    (by decide) (by decide)

/-- Leading prose that itself contains a balanced brace block. -/
def cexC5Pre : List Char := "note \x7b y(); \x7d then ".toList

/-- The valid embedded object following the prose. -/
def cexC5Obj : List Char := "\x7b\"a\": 1\x7d".toList

/-- The full model output: prose with a brace block, then the object. -/
def cexC5Text : List Char := cexC5Pre ++ cexC5Obj

/-- The prose brace block the scan actually selects. -/
def cexC5Wrong : List Char := "\x7b y(); \x7d".toList

/-- A decoder that recognises exactly the embedded object. -/
def cexC5Jl : List Char → Option Nat := fun cs => if cs = cexC5Obj then some 1 else none

/-- C5: counterexample to the unconditional round-trip clause.  The
object is validly embedded after leading prose and decodes in
isolation, the text has no fenced block and no direct parse, yet the
brace-balanced scan starts at the *first* opening brace — inside the
prose — returns the prose block instead of the object, decoding it
fails, and `safe_parse_json` raises a decode error rather than
reproducing the embedded object. -/
theorem structuredExtractorProseBraceDivergence :
    cexC5Text = cexC5Pre ++ cexC5Obj
    ∧ extract_json_block cexC5Obj = .ok cexC5Obj
    ∧ cexC5Jl cexC5Obj = some 1
    ∧ occursIn fenceJsonMarker cexC5Text = false
    ∧ occursIn fenceMarker cexC5Text = false
    ∧ cexC5Jl (stripChars cexC5Text) = none
    ∧ extract_json_block (stripChars cexC5Text) = .ok cexC5Wrong
    ∧ cexC5Wrong ≠ cexC5Obj
    ∧ safe_parse_json (fun _ => none) (fun _ => none) cexC5Jl cexC5Text
        = .error .fromDecode := by
  decide

/-! ## Claim C7 — the Evidence Linker computes connected components

The development below verifies the union-find of
`evidence_linker_node`: parent chains are represented by `RootPath`, the
fueled `findCompress` is proved to return the chain's root and to
compress exactly the chain, unions are proved to merge root classes, and
the grouping loop is proved to bucket ids by root. -/

/-- The parent chain from a node to its root (the node itself first, the
root last). -/
inductive RootPath (p : String → String) : String → List String → Prop
  | root (x : String) : p x = x → RootPath p x [x]
  | step (x : String) (l : List String) : p x ≠ x → RootPath p (p x) l → RootPath p x (x :: l)

/-- Parent chains are unique. -/
theorem rootPath_unique {p : String → String} :
    ∀ {x l₁}, RootPath p x l₁ → ∀ {l₂}, RootPath p x l₂ → l₁ = l₂ := by
  intro x l₁ h₁
  induction h₁ with
  | root x hx =>
    intro l₂ h₂
    cases h₂ with
    | root _ _ => rfl
    | step _ _ hne _ => exact absurd hx hne
  | step x l hne hrec ih =>
    intro l₂ h₂
    cases h₂ with
    | root _ hx => exact absurd hx hne
    | step _ l' _ hrec' => rw [ih hrec']

/-- Every member of a chain starts its own chain, a suffix of the
original. -/
theorem rootPath_mem_suffix {p : String → String} :
    ∀ {x l}, RootPath p x l → ∀ {y}, y ∈ l → ∃ l', RootPath p y l' ∧ l' <:+ l := by
  intro x l h
  induction h with
  | root x hx =>
    intro y hy
    rw [List.mem_singleton] at hy
    exact ⟨[x], hy ▸ RootPath.root x hx, List.suffix_refl _⟩
  | step x l hne hrec ih =>
    intro y hy
    rcases List.mem_cons.mp hy with hy | hy
    · exact ⟨x :: l, hy ▸ RootPath.step x l hne hrec, List.suffix_refl _⟩
    · obtain ⟨l', hp, hs⟩ := ih hy
      exact ⟨l', hp, hs.trans (List.suffix_cons x l)⟩

/-- Chains never revisit a node. -/
theorem rootPath_nodup {p : String → String} :
    ∀ {x l}, RootPath p x l → l.Nodup := by
  intro x l h
  induction h with
  | root x hx => exact List.nodup_singleton x
  | step x l hne hrec ih =>
    refine List.nodup_cons.mpr ⟨?_, ih⟩
    intro hx
    obtain ⟨l', hp, hs⟩ := rootPath_mem_suffix hrec hx
    have heq : x :: l = l' := rootPath_unique (RootPath.step x l hne hrec) hp
    have := hs.length_le
    rw [← heq] at this
    simp at this

/-- A chain ends at a fixpoint of the parent map. -/
theorem rootPath_last {p : String → String} :
    ∀ {x l}, RootPath p x l → ∃ r, l.getLast? = some r ∧ p r = r := by
  intro x l h
  induction h with
  | root x hx => exact ⟨x, rfl, hx⟩
  | step x l hne hrec ih =>
    obtain ⟨r, hr, hfix⟩ := ih
    refine ⟨r, ?_, hfix⟩
    cases l with
    | nil => cases hr
    | cons a as => rw [List.getLast?_cons_cons]; exact hr

/-- Chain members stay inside a parent-closed carrier. -/
theorem rootPath_subset {p : String → String} {ids : List String}
    (hclosed : ∀ x ∈ ids, p x ∈ ids) :
    ∀ {x l}, RootPath p x l → x ∈ ids → ∀ y ∈ l, y ∈ ids := by
  intro x l h
  induction h with
  | root x hx =>
    intro hxi y hy
    rw [List.mem_singleton] at hy
    exact hy ▸ hxi
  | step x l hne hrec ih =>
    intro hxi y hy
    rcases List.mem_cons.mp hy with hy | hy
    · exact hy ▸ hxi
    · exact ih (hclosed x hxi) y hy

/-- `r` is the root of `x` under parent map `p`. -/
def Root (p : String → String) (x r : String) : Prop :=
  ∃ l, RootPath p x l ∧ l.getLast? = some r

/-- Roots are unique. -/
theorem root_unique {p : String → String} {x r₁ r₂ : String}
    (h₁ : Root p x r₁) (h₂ : Root p x r₂) : r₁ = r₂ := by
  obtain ⟨l₁, hp₁, hl₁⟩ := h₁
  obtain ⟨l₂, hp₂, hl₂⟩ := h₂
  rw [rootPath_unique hp₁ hp₂] at hl₁
  exact Option.some.inj (hl₁ ▸ hl₂)

/-- A root is a fixpoint, and a fixpoint is its own root. -/
theorem root_self {p : String → String} {x : String} (h : p x = x) : Root p x x :=
  ⟨[x], RootPath.root x h, rfl⟩

/-- The root of a node is a fixpoint of the parent map. -/
theorem root_fix {p : String → String} {x r : String} (h : Root p x r) : p r = r := by
  obtain ⟨l, hp, hl⟩ := h
  obtain ⟨r', hr', hfix⟩ := rootPath_last hp
  rw [hl] at hr'
  exact Option.some.inj hr' ▸ hfix

/-- A node shares the root of every member of its chain. -/
theorem root_of_mem {p : String → String} {x r y : String} {l : List String}
    (hp : RootPath p x l) (hl : l.getLast? = some r) (hy : y ∈ l) : Root p y r := by
  obtain ⟨l', hp', hs⟩ := rootPath_mem_suffix hp hy
  refine ⟨l', hp', ?_⟩
  have hne : l' ≠ [] := by
    intro h
    rw [h] at hp'
    cases hp'
  obtain ⟨t, ht⟩ := hs
  rw [← hl, ← ht, List.getLast?_append_of_ne_nil t hne]

/-- A chain is never empty. -/
theorem rootPath_ne_nil {p : String → String} {x : String} {l : List String}
    (h : RootPath p x l) : l ≠ [] := by
  cases h <;> simp

/-- Specification of the fueled `find` with path compression: with fuel
at least the chain length, it returns the chain's root, and the returned
map redirects exactly the non-root chain members to the root, leaving
every other node untouched. -/
theorem findCompress_spec :
    ∀ (fuel : Nat) (p : String → String) (x : String) (l : List String),
    RootPath p x l → l.length ≤ fuel + 1 →
    ∃ r, l.getLast? = some r
      ∧ (findCompress p fuel x).1 = r
      ∧ (∀ y, (findCompress p fuel x).2 y = if y ∈ l.dropLast then r else p y) := by
  intro fuel
  induction fuel with
  | zero =>
    intro p x l hpath hlen
    cases hpath with
    | root x hx =>
      refine ⟨x, rfl, rfl, ?_⟩
      intro y
      simp [findCompress]
    | step x l' hne hrec =>
      exfalso
      have hl' : l' = [] := by
        rw [List.length_cons] at hlen
        exact List.length_eq_zero.mp (by omega)
      rw [hl'] at hrec
      exact rootPath_ne_nil hrec rfl
  | succ fuel ih =>
    intro p x l hpath hlen
    cases hpath with
    | root x hx =>
      refine ⟨x, rfl, ?_, ?_⟩
      · rw [findCompress, if_pos hx]
      · intro y
        rw [findCompress, if_pos hx]
        simp
    | step x l' hne hrec =>
      have hl'ne : l' ≠ [] := rootPath_ne_nil hrec
      obtain ⟨r, hr, hfst, hsnd⟩ := ih p (p x) l' hrec
        (by rw [List.length_cons] at hlen; omega)
      refine ⟨r, ?_, ?_, ?_⟩
      · rw [show x :: l' = [x] ++ l' from rfl, List.getLast?_append_of_ne_nil [x] hl'ne]
        exact hr
      · rw [findCompress, if_neg hne]
        exact hfst
      · intro y
        rw [findCompress, if_neg hne]
        dsimp only
        rw [List.dropLast_cons_of_ne_nil hl'ne]
        by_cases hyx : y = x
        · subst hyx
          rw [if_pos rfl, if_pos (List.mem_cons_self y _)]
          exact hfst
        · rw [if_neg hyx, hsnd y]
          by_cases hmem : y ∈ l'.dropLast
          · rw [if_pos hmem, if_pos (List.mem_cons_of_mem x hmem)]
          · rw [if_neg hmem, if_neg (by
              intro hc
              rcases List.mem_cons.mp hc with hc | hc
              · exact hyx hc
              · exact hmem hc)]

/-- Invariant of the linker's union-find state: the parent map is the
identity outside the id carrier, closed on it, and every id has a parent
chain inside it. -/
structure UFInv (ids : List String) (p : String → String) : Prop where
  outside : ∀ x, x ∉ ids → p x = x
  closed : ∀ x ∈ ids, p x ∈ ids
  reaches : ∀ x ∈ ids, ∃ l, RootPath p x l

/-- Every node has a root under the invariant. -/
theorem root_total {ids : List String} {p : String → String} (h : UFInv ids p) (x : String) :
    ∃ r, Root p x r := by
  by_cases hx : x ∈ ids
  · obtain ⟨l, hl⟩ := h.reaches x hx
    obtain ⟨r, hr, _⟩ := rootPath_last hl
    exact ⟨r, l, hl, hr⟩
  · exact ⟨x, root_self (h.outside x hx)⟩

/-- Roots of ids lie inside the carrier. -/
theorem root_mem {ids : List String} {p : String → String} (h : UFInv ids p) {x r : String}
    (hx : x ∈ ids) (hr : Root p x r) : r ∈ ids := by
  obtain ⟨l, hl, hlast⟩ := hr
  have hsub := rootPath_subset h.closed hl hx
  have hne := rootPath_ne_nil hl
  exact hsub r (List.mem_of_mem_getLast? hlast)

/-- Redirecting the strict chain members of one chain straight to its
root preserves every chain's root; the new chain uses at most the old
nodes and the root. -/
theorem repath_compress {p : String → String} {S : List String} {r : String}
    (hS : ∀ y ∈ S, Root p y r) (hrS : r ∉ S) :
    ∀ {y my}, RootPath p y my →
      ∃ my', RootPath (fun z => if z ∈ S then r else p z) y my'
        ∧ my'.getLast? = my.getLast?
        ∧ ∀ z ∈ my', z ∈ my ∨ z = r := by
  intro y my h
  induction h with
  | root y hy =>
    have hyS : y ∉ S := by
      intro hyS
      have h1 : Root p y r := hS y hyS
      have h2 : Root p y y := root_self hy
      exact hrS ((root_unique h1 h2) ▸ hyS)
    refine ⟨[y], RootPath.root y ?_, rfl, ?_⟩
    · rw [if_neg hyS]
      exact hy
    · intro z hz
      exact Or.inl hz
  | step y m hne hrec ih =>
    by_cases hyS : y ∈ S
    · have hroot : Root p y r := hS y hyS
      have hfix : p r = r := root_fix hroot
      have hyr : y ≠ r := fun h => hrS (h ▸ hyS)
      have hrS' : r ∉ S := hrS
      have hlast : (y :: m).getLast? = some r := by
        obtain ⟨l', hp', hl'⟩ := hroot
        rw [rootPath_unique (RootPath.step y m hne hrec) hp']
        exact hl'
      refine ⟨[y, r], ?_, ?_, ?_⟩
      · refine RootPath.step y [r] ?_ ?_
        · rw [if_pos hyS]
          exact fun h => hyr h.symm
        · rw [if_pos hyS]
          refine RootPath.root r ?_
          rw [if_neg hrS']
          exact hfix
      · rw [hlast]
        rfl
      · intro z hz
        rcases List.mem_cons.mp hz with hz | hz
        · exact Or.inl (hz ▸ List.mem_cons_self y m)
        · rw [List.mem_singleton] at hz
          exact Or.inr hz
    · obtain ⟨m', hp', hlast', hsub'⟩ := ih
      have hnem : m ≠ [] := rootPath_ne_nil hrec
      have hnem' : m' ≠ [] := rootPath_ne_nil hp'
      refine ⟨y :: m', ?_, ?_, ?_⟩
      · refine RootPath.step y m' ?_ ?_
        · rw [if_neg hyS]
          exact hne
        · rw [if_neg hyS]
          exact hp'
      · rw [show y :: m' = [y] ++ m' from rfl, List.getLast?_append_of_ne_nil [y] hnem',
          show y :: m = [y] ++ m from rfl, List.getLast?_append_of_ne_nil [y] hnem]
        exact hlast'
      · intro z hz
        rcases List.mem_cons.mp hz with hz | hz
        · exact Or.inl (hz ▸ List.mem_cons_self y m)
        · rcases hsub' z hz with h | h
          · exact Or.inl (List.mem_cons_of_mem y h)
          · exact Or.inr h

/-- Linking one root under another preserves every other chain and
extends the chains of the first root's class by the new root. -/
theorem repath_union {p : String → String} {ra rb : String}
    (hra : p ra = ra) (hrb : p rb = rb) (hne : ra ≠ rb) :
    ∀ {y my}, RootPath p y my →
      ∃ my', RootPath (fun z => if z = ra then rb else p z) y my'
        ∧ ((my.getLast? = some ra ∧ my'.getLast? = some rb)
            ∨ (my.getLast? ≠ some ra ∧ my'.getLast? = my.getLast?))
        ∧ ∀ z ∈ my', z ∈ my ∨ z = rb := by
  intro y my h
  induction h with
  | root y hy =>
    by_cases hyra : y = ra
    · subst hyra
      refine ⟨[y, rb], ?_, ?_, ?_⟩
      · refine RootPath.step y [rb] ?_ ?_
        · rw [if_pos rfl]
          exact fun h => hne h.symm
        · rw [if_pos rfl]
          refine RootPath.root rb ?_
          rw [if_neg (fun h => hne h.symm)]
          exact hrb
      · exact Or.inl ⟨rfl, rfl⟩
      · intro z hz
        rcases List.mem_cons.mp hz with hz | hz
        · exact Or.inl (hz ▸ List.mem_cons_self _ _)
        · rw [List.mem_singleton] at hz
          exact Or.inr hz
    · refine ⟨[y], RootPath.root y ?_, ?_, ?_⟩
      · rw [if_neg hyra]
        exact hy
      · refine Or.inr ⟨?_, rfl⟩
        intro hc
        exact hyra (Option.some.inj hc)
      · intro z hz
        exact Or.inl hz
  | step y m hnes hrec ih =>
    have hyra : y ≠ ra := by
      intro h
      subst h
      exact hnes hra
    obtain ⟨m', hp', hlast', hsub'⟩ := ih
    have hnem : m ≠ [] := rootPath_ne_nil hrec
    have hnem' : m' ≠ [] := rootPath_ne_nil hp'
    refine ⟨y :: m', ?_, ?_, ?_⟩
    · refine RootPath.step y m' ?_ ?_
      · rw [if_neg hyra]
        exact hnes
      · rw [if_neg hyra]
        exact hp'
    · rw [show y :: m' = [y] ++ m' from rfl, List.getLast?_append_of_ne_nil [y] hnem',
        show y :: m = [y] ++ m from rfl, List.getLast?_append_of_ne_nil [y] hnem]
      exact hlast'
    · intro z hz
      rcases List.mem_cons.mp hz with hz | hz
      · exact Or.inl (hz ▸ List.mem_cons_self y m)
      · rcases hsub' z hz with h | h
        · exact Or.inl (List.mem_cons_of_mem y h)
        · exact Or.inr h

/-- Two nodes share a root. -/
def sameRoot (p : String → String) (x y : String) : Prop :=
  ∃ r, Root p x r ∧ Root p y r

/-- Shared-root is an equivalence under the invariant. -/
theorem sameRoot_equiv {ids : List String} {p : String → String} (h : UFInv ids p) :
    Equivalence (sameRoot p) := by
  refine ⟨fun x => ?_, fun hxy => ?_, fun hxy hyz => ?_⟩
  · obtain ⟨r, hr⟩ := root_total h x
    exact ⟨r, hr, hr⟩
  · obtain ⟨r, h1, h2⟩ := hxy
    exact ⟨r, h2, h1⟩
  · obtain ⟨r, h1, h2⟩ := hxy
    obtain ⟨r', h3, h4⟩ := hyz
    exact ⟨r', root_unique h2 h3 ▸ h1, h4⟩

/-- Every root of the first map is a root of the second. -/
def rootPreserved (p q : String → String) : Prop :=
  ∀ x r, Root p x r → Root q x r

/-- Root preservation keeps the shared-root relation. -/
theorem sameRoot_of_preserved {ids : List String} {p q : String → String}
    (hp : UFInv ids p) (hpres : rootPreserved p q) (x y : String) :
    sameRoot p x y ↔ sameRoot q x y := by
  constructor
  · rintro ⟨r, h1, h2⟩
    exact ⟨r, hpres x r h1, hpres y r h2⟩
  · rintro ⟨r, h1, h2⟩
    obtain ⟨rx, hrx⟩ := root_total hp x
    obtain ⟨ry, hry⟩ := root_total hp y
    have hx := root_unique (hpres x rx hrx) h1
    have hy := root_unique (hpres y ry hry) h2
    exact ⟨r, hx ▸ hrx, hy ▸ hry⟩

/-- The last element of a duplicate-free list is not among the others. -/
theorem getLast?_not_mem_dropLast {l : List String} (hnd : l.Nodup) {r : String}
    (hr : l.getLast? = some r) : r ∉ l.dropLast := by
  obtain ⟨ys, rfl⟩ := List.getLast?_eq_some_iff.mp hr
  rw [List.dropLast_concat]
  intro hmem
  exact List.disjoint_of_nodup_append hnd hmem (List.mem_singleton_self r)

/-- A chain inside a duplicate-free carrier is no longer than the
carrier. -/
theorem rootPath_length_le {ids : List String} {p : String → String} {x : String}
    {l : List String} (hnd : ids.Nodup) (hpath : RootPath p x l)
    (hsub : ∀ y ∈ l, y ∈ ids) : l.length ≤ ids.length := by
  have h1 : l.toFinset.card = l.length := List.toFinset_card_of_nodup (rootPath_nodup hpath)
  have h2 : ids.toFinset.card = ids.length := List.toFinset_card_of_nodup hnd
  rw [← h1, ← h2]
  refine Finset.card_le_card ?_
  intro a ha
  rw [List.mem_toFinset] at ha
  rw [List.mem_toFinset]
  exact hsub a ha

/-- The fueled `find` keeps the invariant, preserves all roots, and
returns its argument's root, provided the fuel covers the carrier. -/
theorem findCompress_inv {ids : List String} {p : String → String} {fuel : Nat}
    (hnd : ids.Nodup) (h : UFInv ids p) (hfuel : ids.length ≤ fuel) (x : String) :
    UFInv ids (findCompress p fuel x).2
    ∧ rootPreserved p (findCompress p fuel x).2
    ∧ Root p x (findCompress p fuel x).1 := by
  by_cases hx : x ∈ ids
  · obtain ⟨l, hl⟩ := h.reaches x hx
    have hsub := rootPath_subset h.closed hl hx
    have hlen : l.length ≤ fuel + 1 :=
      le_trans (rootPath_length_le hnd hl hsub) (by omega)
    obtain ⟨r, hr, hfst, hsnd⟩ := findCompress_spec fuel p x l hl hlen
    have hSroot : ∀ y ∈ l.dropLast, Root p y r := fun y hy =>
      root_of_mem hl hr ((List.dropLast_sublist l).subset hy)
    have hrS : r ∉ l.dropLast := getLast?_not_mem_dropLast (rootPath_nodup hl) hr
    have hqe : (findCompress p fuel x).2 = fun z => if z ∈ l.dropLast then r else p z :=
      funext hsnd
    have hrmem : r ∈ ids := root_mem h hx ⟨l, hl, hr⟩
    have hrepath := fun {y my} (hmy : RootPath p y my) =>
      repath_compress hSroot hrS hmy
    refine ⟨⟨?_, ?_, ?_⟩, ?_, ?_⟩
    · intro z hz
      rw [hqe]
      dsimp only
      rw [if_neg (fun hc => hz (hsub z ((List.dropLast_sublist l).subset hc)))]
      exact h.outside z hz
    · intro z hz
      rw [hqe]
      dsimp only
      split
      · exact hrmem
      · exact h.closed z hz
    · intro z hz
      obtain ⟨m, hm⟩ := h.reaches z hz
      obtain ⟨m', hm', _, _⟩ := hrepath hm
      rw [hqe]
      exact ⟨m', hm'⟩
    · intro z rz hrz
      obtain ⟨m, hm, hml⟩ := hrz
      obtain ⟨m', hm', hml', _⟩ := hrepath hm
      rw [hqe]
      exact ⟨m', hm', hml' ▸ hml⟩
    · rw [hfst]
      exact ⟨l, hl, hr⟩
  · have hfix : p x = x := h.outside x hx
    have hres : findCompress p fuel x = (x, p) := by
      cases fuel with
      | zero => rfl
      | succ n => rw [findCompress, if_pos hfix]
    rw [hres]
    exact ⟨h, fun _ _ hr => hr, root_self hfix⟩

/-- Closure of an equivalence joined with one extra pair: the merged
relation identifies the two classes of the pair's endpoints. -/
theorem eqvGen_join {E : String → String → Prop} (hE : Equivalence E) (a b x y : String) :
    Relation.EqvGen (fun u v => E u v ∨ (u = a ∧ v = b)) x y ↔
      (E x y ∨ ((E x a ∨ E x b) ∧ (E y a ∨ E y b))) := by
  constructor
  · intro h
    induction h with
    | rel u v huv =>
      rcases huv with huv | ⟨rfl, rfl⟩
      · exact Or.inl huv
      · exact Or.inr ⟨Or.inl (hE.refl u), Or.inr (hE.refl v)⟩
    | refl u => exact Or.inl (hE.refl u)
    | symm u v _ ih =>
      rcases ih with ih | ⟨h1, h2⟩
      · exact Or.inl (hE.symm ih)
      · exact Or.inr ⟨h2, h1⟩
    | trans u v w _ _ ih1 ih2 =>
      rcases ih1 with ih1 | ⟨h1, h2⟩ <;> rcases ih2 with ih2 | ⟨h3, h4⟩
      · exact Or.inl (hE.trans ih1 ih2)
      · refine Or.inr ⟨?_, h4⟩
        rcases h3 with h3 | h3
        · exact Or.inl (hE.trans ih1 h3)
        · exact Or.inr (hE.trans ih1 h3)
      · refine Or.inr ⟨h1, ?_⟩
        rcases h2 with h2 | h2
        · exact Or.inl (hE.trans (hE.symm ih2) h2)
        · exact Or.inr (hE.trans (hE.symm ih2) h2)
      · exact Or.inr ⟨h1, h4⟩
  · intro h
    have hab : Relation.EqvGen (fun u v => E u v ∨ (u = a ∧ v = b)) a b :=
      .rel a b (Or.inr ⟨rfl, rfl⟩)
    have hmk : ∀ {u v}, E u v → Relation.EqvGen (fun u v => E u v ∨ (u = a ∧ v = b)) u v :=
      fun huv => .rel _ _ (Or.inl huv)
    rcases h with h | ⟨h1, h2⟩
    · exact hmk h
    · rcases h1 with h1 | h1 <;> rcases h2 with h2 | h2
      · exact .trans _ _ _ (hmk h1) (.symm _ _ (hmk h2))
      · exact .trans _ _ _ (hmk h1) (.trans _ _ _ hab (.symm _ _ (hmk h2)))
      · exact .trans _ _ _ (hmk h1) (.trans _ _ _ (.symm _ _ hab) (.symm _ _ (hmk h2)))
      · exact .trans _ _ _ (hmk h1) (.symm _ _ (hmk h2))

/-- Flattening a nested closure on the left disjunct. -/
theorem eqvGen_or_flatten {R S : String → String → Prop} (x y : String) :
    Relation.EqvGen (fun u v => Relation.EqvGen R u v ∨ S u v) x y ↔
      Relation.EqvGen (fun u v => R u v ∨ S u v) x y := by
  constructor
  · intro h
    induction h with
    | rel u v huv =>
      rcases huv with huv | huv
      · exact Relation.EqvGen.mono (fun a b hr => Or.inl hr) huv
      · exact .rel u v (Or.inr huv)
    | refl u => exact .refl u
    | symm u v _ ih => exact .symm u v ih
    | trans u v w _ _ ih1 ih2 => exact .trans u v w ih1 ih2
  · exact Relation.EqvGen.mono fun a b hab =>
      hab.elim (fun hr => Or.inl (.rel a b hr)) Or.inr

/-- Specification of one `union` call: the invariant is kept and the
shared-root relation becomes the closure of the previous one joined with
the processed pair. -/
theorem unionStep_spec {ids : List String} {p : String → String} {fuel : Nat}
    (hnd : ids.Nodup) (h : UFInv ids p) (hfuel : ids.length ≤ fuel)
    (pr : String × String) (ha : pr.1 ∈ ids) (hb : pr.2 ∈ ids) :
    UFInv ids (unionStep fuel p pr)
    ∧ ∀ x y, sameRoot (unionStep fuel p pr) x y ↔
        Relation.EqvGen (fun u v => sameRoot p u v ∨ (u = pr.1 ∧ v = pr.2)) x y := by
  obtain ⟨hinv1, hpres1, hroot1⟩ := findCompress_inv hnd h hfuel pr.1
  obtain ⟨hinv2, hpres2, hroot2⟩ :=
    findCompress_inv hnd hinv1 hfuel (x := pr.2) (p := (findCompress p fuel pr.1).2)
  set ra := (findCompress p fuel pr.1).1 with hra_def
  set p1 := (findCompress p fuel pr.1).2 with hp1_def
  set rb := (findCompress p1 fuel pr.2).1 with hrb_def
  set p2 := (findCompress p1 fuel pr.2).2 with hp2_def
  have hrootA : Root p pr.1 ra := hroot1
  have hrootB : Root p pr.2 rb := by
    obtain ⟨r0, hr0⟩ := root_total h pr.2
    have := root_unique (hpres1 pr.2 r0 hr0) hroot2
    exact this ▸ hr0
  have hpres12 : rootPreserved p p2 := fun z r hr => hpres2 z r (hpres1 z r hr)
  have hsame2 : ∀ x y, sameRoot p x y ↔ sameRoot p2 x y :=
    sameRoot_of_preserved h hpres12
  have hEe : Equivalence (sameRoot p) := sameRoot_equiv h
  have hunfold : unionStep fuel p pr =
      if ra ≠ rb then (fun y => if y = ra then rb else p2 y) else p2 := by
    rw [unionStep]
  by_cases hne : ra = rb
  · rw [hunfold, if_neg (by simp [hne])]
    have hsab : sameRoot p pr.1 pr.2 := ⟨ra, hrootA, hne ▸ hrootB⟩
    refine ⟨hinv2, fun x y => ?_⟩
    rw [← hsame2 x y, eqvGen_join hEe]
    constructor
    · exact Or.inl
    · rintro (h | ⟨h1, h2⟩)
      · exact h
      · have hxa : sameRoot p x pr.1 := by
          rcases h1 with h1 | h1
          · exact h1
          · exact hEe.trans h1 (hEe.symm hsab)
        have hya : sameRoot p y pr.1 := by
          rcases h2 with h2 | h2
          · exact h2
          · exact hEe.trans h2 (hEe.symm hsab)
        exact hEe.trans hxa (hEe.symm hya)
  · rw [hunfold, if_pos (by simp [hne])]
    have hraFix2 : p2 ra = ra := root_fix (hpres12 pr.1 ra hrootA)
    have hrbFix2 : p2 rb = rb := root_fix (hpres12 pr.2 rb hrootB)
    have hrepath := fun {y my} (hmy : RootPath p2 y my) =>
      repath_union hraFix2 hrbFix2 hne hmy
    have hraMem : ra ∈ ids := root_mem h ha hrootA
    have hrbMem : rb ∈ ids := root_mem h hb hrootB
    have hrootQ : ∀ z rz, Root p2 z rz →
        Root (fun w => if w = ra then rb else p2 w) z (if rz = ra then rb else rz) := by
      intro z rz hrz
      obtain ⟨m, hm, hml⟩ := hrz
      obtain ⟨m', hm', hcase, _⟩ := hrepath hm
      rcases hcase with ⟨hl1, hl2⟩ | ⟨hl1, hl2⟩
      · rw [hml] at hl1
        rw [if_pos (Option.some.inj hl1)]
        exact ⟨m', hm', hl2⟩
      · rw [if_neg (show ¬ rz = ra from fun hc => hl1 (hc ▸ hml))]
        exact ⟨m', hm', hl2.trans hml⟩
    refine ⟨⟨?_, ?_, ?_⟩, fun x y => ?_⟩
    · intro z hz
      dsimp only
      rw [if_neg (show ¬ z = ra from fun hc => hz (hc.symm ▸ hraMem))]
      exact hinv2.outside z hz
    · intro z hz
      dsimp only
      split
      · exact hrbMem
      · exact hinv2.closed z hz
    · intro z hz
      obtain ⟨m, hm⟩ := hinv2.reaches z hz
      obtain ⟨m', hm', _, _⟩ := hrepath hm
      exact ⟨m', hm'⟩
    · rw [eqvGen_join hEe]
      have hrootQtot : ∀ z, ∃ rz, Root p2 z rz := root_total hinv2
      constructor
      · rintro ⟨r, hx, hy⟩
        obtain ⟨rx, hrx⟩ := hrootQtot x
        obtain ⟨ry, hry⟩ := hrootQtot y
        have hqx := hrootQ x rx hrx
        have hqy := hrootQ y ry hry
        have hex := root_unique hqx hx
        have hey := root_unique hqy hy
        rw [← hey] at hex
        by_cases hxa : rx = ra <;> by_cases hya : ry = ra
        · exact Or.inl ((hsame2 x y).mpr ⟨ra, hxa ▸ hrx, hya ▸ hry⟩)
        · rw [if_pos hxa, if_neg hya] at hex
          refine Or.inr ⟨Or.inl ((hsame2 x pr.1).mpr ⟨ra, hxa ▸ hrx, hpres12 pr.1 ra hrootA⟩),
            Or.inr ((hsame2 y pr.2).mpr ⟨rb, hex ▸ hry, hpres12 pr.2 rb hrootB⟩)⟩
        · rw [if_neg hxa, if_pos hya] at hex
          refine Or.inr ⟨Or.inr ((hsame2 x pr.2).mpr ⟨rb, hex ▸ hrx, hpres12 pr.2 rb hrootB⟩),
            Or.inl ((hsame2 y pr.1).mpr ⟨ra, hya ▸ hry, hpres12 pr.1 ra hrootA⟩)⟩
        · rw [if_neg hxa, if_neg hya] at hex
          exact Or.inl ((hsame2 x y).mpr ⟨rx, hrx, hex ▸ hry⟩)
      · intro hcase
        have hq : ∀ u v, sameRoot p2 u v →
            sameRoot (fun w => if w = ra then rb else p2 w) u v := by
          rintro u v ⟨r, hu, hv⟩
          exact ⟨if r = ra then rb else r, hrootQ u r hu, hrootQ v r hv⟩
        have hqab : sameRoot (fun w => if w = ra then rb else p2 w) pr.1 pr.2 := by
          refine ⟨rb, ?_, ?_⟩
          · have := hrootQ pr.1 ra (hpres12 pr.1 ra hrootA)
            rw [if_pos rfl] at this
            exact this
          · have := hrootQ pr.2 rb (hpres12 pr.2 rb hrootB)
            rw [if_neg (fun hc => hne hc.symm)] at this
            exact this
        have hEq : Equivalence (sameRoot (fun w => if w = ra then rb else p2 w)) := by
          refine @sameRoot_equiv ids _ ⟨?_, ?_, ?_⟩
          · intro z hz
            dsimp only
            rw [if_neg (show ¬ z = ra from fun hc => hz (hc.symm ▸ hraMem))]
            exact hinv2.outside z hz
          · intro z hz
            dsimp only
            split
            · exact hrbMem
            · exact hinv2.closed z hz
          · intro z hz
            obtain ⟨m, hm⟩ := hinv2.reaches z hz
            obtain ⟨m', hm', _, _⟩ := hrepath hm
            exact ⟨m', hm'⟩
        rcases hcase with hxy | ⟨h1, h2⟩
        · exact hq x y ((hsame2 x y).mp hxy)
        · have hget : ∀ z, (sameRoot p z pr.1 ∨ sameRoot p z pr.2) →
              sameRoot (fun w => if w = ra then rb else p2 w) z pr.2 := by
            rintro z (hz | hz)
            · exact hEq.trans (hq z pr.1 ((hsame2 z pr.1).mp hz)) hqab
            · exact hq z pr.2 ((hsame2 z pr.2).mp hz)
          exact hEq.trans (hget x h1) (hEq.symm (hget y h2))

/-- Specification of the whole union fold: the invariant is maintained
and two nodes share a root exactly when they are related by the
equivalence closure of the processed pair list (joined with the initial
shared-root relation). -/
theorem foldUnion_spec {ids : List String} {fuel : Nat} (hnd : ids.Nodup)
    (hfuel : ids.length ≤ fuel) :
    ∀ (pairs : List (String × String)) (p : String → String),
    UFInv ids p → (∀ pr ∈ pairs, pr.1 ∈ ids ∧ pr.2 ∈ ids) →
    UFInv ids (pairs.foldl (unionStep fuel) p)
    ∧ ∀ x y, sameRoot (pairs.foldl (unionStep fuel) p) x y ↔
        Relation.EqvGen (fun u v => sameRoot p u v ∨ (u, v) ∈ pairs) x y := by
  intro pairs
  induction pairs with
  | nil =>
    intro p hp _
    refine ⟨hp, fun x y => ?_⟩
    rw [List.foldl_nil]
    constructor
    · intro h
      exact .rel x y (Or.inl h)
    · intro h
      have : Relation.EqvGen (sameRoot p) x y := by
        refine Relation.EqvGen.mono ?_ h
        rintro a b (hab | hab)
        · exact hab
        · cases hab
      exact ((sameRoot_equiv hp).eqvGen_iff).mp this
  | cons pr rest ih =>
    intro p hp hmem
    obtain ⟨hinv1, hiff1⟩ := unionStep_spec hnd hp hfuel pr
      (hmem pr (List.mem_cons_self pr rest)).1 (hmem pr (List.mem_cons_self pr rest)).2
    obtain ⟨hinvF, hiffF⟩ := ih (unionStep fuel p pr) hinv1
      (fun q hq => hmem q (List.mem_cons_of_mem pr hq))
    rw [List.foldl_cons]
    refine ⟨hinvF, fun x y => ?_⟩
    rw [hiffF x y]
    constructor
    · intro h
      have h1 : Relation.EqvGen (fun u v =>
          Relation.EqvGen (fun a b => sameRoot p a b ∨ (a = pr.1 ∧ b = pr.2)) u v
            ∨ (u, v) ∈ rest) x y := by
        refine Relation.EqvGen.mono ?_ h
        rintro a b (hab | hab)
        · exact Or.inl ((hiff1 a b).mp hab)
        · exact Or.inr hab
      have h2 := (eqvGen_or_flatten x y).mp h1
      refine Relation.EqvGen.mono ?_ h2
      rintro a b ((hab | ⟨rfl, rfl⟩) | hab)
      · exact Or.inl hab
      · exact Or.inr (List.mem_cons_self _ _)
      · exact Or.inr (List.mem_cons_of_mem pr hab)
    · intro h
      refine Relation.EqvGen.mono ?_ h
      rintro a b (hab | hab)
      · exact Or.inl ((hiff1 a b).mpr (.rel a b (Or.inl hab)))
      · rcases List.mem_cons.mp hab with hab | hab
        · refine Or.inl ((hiff1 a b).mpr (.rel a b (Or.inr ?_)))
          rw [Prod.ext_iff] at hab
          exact ⟨hab.1, hab.2⟩
        · exact Or.inr hab

/-- First bucket for a key (the `components[root]` read); `[]` when the
key is absent. -/
def bucketGet : List (String × List String) → String → List String
  | [], _ => []
  | rc :: rest, r => if rc.1 = r then rc.2 else bucketGet rest r

/-- Keys of the bucket list. -/
def bucketKeys (comps : List (String × List String)) : List String :=
  comps.map Prod.fst

/-- The grouping loop buckets every id by its (stable) root. -/
theorem groupByRoot_spec {ids : List String} {fuel : Nat} (hnd : ids.Nodup)
    (hfuel : ids.length ≤ fuel) (f : String → String) :
    ∀ (todo : List String) (p : String → String) (comps : List (String × List String)),
    UFInv ids p → (∀ z, Root p z (f z)) →
    (groupByRoot fuel todo p comps).2
      = todo.foldl (fun cs x => addToBucket cs (f x) x) comps := by
  intro todo
  induction todo with
  | nil =>
    intro p comps _ _
    rfl
  | cons x rest ih =>
    intro p comps hp hf
    rw [groupByRoot]
    obtain ⟨hinv', hpres', hroot'⟩ := findCompress_inv hnd hp hfuel x
    have hr : (findCompress p fuel x).1 = f x := root_unique hroot' (hf x)
    have hf' : ∀ z, Root (findCompress p fuel x).2 z (f z) := fun z => hpres' z (f z) (hf z)
    rw [List.foldl_cons, hr]
    exact ih _ _ hinv' hf'

/-- Reading after one bucket insertion. -/
theorem bucketGet_addToBucket (comps : List (String × List String)) (r x r' : String) :
    bucketGet (addToBucket comps r x) r'
      = if r' = r then bucketGet comps r ++ [x] else bucketGet comps r' := by
  induction comps with
  | nil =>
    by_cases h : r' = r
    · subst h
      simp [addToBucket, bucketGet]
    · simp [addToBucket, bucketGet, h, Ne.symm h]
  | cons kxs rest ih =>
    obtain ⟨k, xs⟩ := kxs
    rw [addToBucket]
    by_cases hk : k = r
    · subst hk
      rw [if_pos rfl]
      by_cases h : r' = k
      · subst h
        simp [bucketGet]
      · simp [bucketGet, h, Ne.symm h]
    · rw [if_neg hk]
      by_cases hkr : k = r'
      · subst hkr
        rw [if_neg (fun hc : k = r => hk hc)]
        simp [bucketGet]
      · have hstep : bucketGet ((k, xs) :: addToBucket rest r x) r'
            = bucketGet (addToBucket rest r x) r' := by simp [bucketGet, hkr]
        rw [hstep, ih]
        by_cases h : r' = r
        · rw [if_pos h, if_pos h]
          have hdrop : bucketGet ((k, xs) :: rest) r = bucketGet rest r := by
            simp [bucketGet, hk]
          rw [hdrop]
        · rw [if_neg h, if_neg h]
          simp [bucketGet, hkr]

/-- Keys after one bucket insertion. -/
theorem bucketKeys_addToBucket (comps : List (String × List String)) (r x : String) :
    bucketKeys (addToBucket comps r x)
      = if r ∈ bucketKeys comps then bucketKeys comps else bucketKeys comps ++ [r] := by
  induction comps with
  | nil => simp [addToBucket, bucketKeys]
  | cons kxs rest ih =>
    obtain ⟨k, xs⟩ := kxs
    rw [addToBucket]
    by_cases hk : k = r
    · subst hk
      rw [if_pos rfl]
      simp [bucketKeys]
    · rw [if_neg hk]
      have h1 : bucketKeys ((k, xs) :: addToBucket rest r x)
          = k :: bucketKeys (addToBucket rest r x) := rfl
      have h2 : bucketKeys ((k, xs) :: rest) = k :: bucketKeys rest := rfl
      rw [h1, h2, ih]
      by_cases hmem : r ∈ bucketKeys rest
      · rw [if_pos hmem, if_pos (List.mem_cons_of_mem k hmem)]
      · rw [if_neg hmem, if_neg (by
          intro hc
          rcases List.mem_cons.mp hc with hc | hc
          · exact hk hc.symm
          · exact hmem hc)]
        rfl

/-- Bucket insertion keeps keys duplicate-free. -/
theorem bucketKeys_nodup_addToBucket {comps : List (String × List String)} {r x : String}
    (h : (bucketKeys comps).Nodup) : (bucketKeys (addToBucket comps r x)).Nodup := by
  rw [bucketKeys_addToBucket]
  by_cases hmem : r ∈ bucketKeys comps
  · rw [if_pos hmem]
    exact h
  · rw [if_neg hmem]
    simp [List.Nodup, List.pairwise_append]
    constructor
    · exact h
    · intro a ha hc
      exact hmem (hc ▸ ha)

/-- With duplicate-free keys, a listed bucket is what its key reads. -/
theorem bucketGet_of_mem : ∀ {comps : List (String × List String)} {k : String}
    {xs : List String}, (bucketKeys comps).Nodup → (k, xs) ∈ comps →
    bucketGet comps k = xs := by
  intro comps
  induction comps with
  | nil =>
    intro k xs _ hmem
    cases hmem
  | cons kxs rest ih =>
    intro k xs hnd hmem
    obtain ⟨k0, xs0⟩ := kxs
    have hnd' : (bucketKeys rest).Nodup ∧ k0 ∉ bucketKeys rest := by
      have : (k0 :: bucketKeys rest).Nodup := hnd
      rw [List.nodup_cons] at this
      exact ⟨this.2, this.1⟩
    rcases List.mem_cons.mp hmem with hmem | hmem
    · rw [Prod.mk.injEq] at hmem
      obtain ⟨h1, h2⟩ := hmem
      rw [bucketGet, if_pos h1.symm]
      exact h2.symm
    · have hkne : ¬ k0 = k := by
        intro hc
        refine hnd'.2 ?_
        rw [hc]
        exact List.mem_map_of_mem Prod.fst hmem
      rw [bucketGet, if_neg hkne]
      exact ih hnd'.1 hmem

/-- A non-empty read exhibits its bucket in the list. -/
theorem mem_of_bucketGet_ne : ∀ (comps : List (String × List String)) (r : String),
    bucketGet comps r ≠ [] → (r, bucketGet comps r) ∈ comps := by
  intro comps
  induction comps with
  | nil =>
    intro r h
    exact absurd rfl h
  | cons kxs rest ih =>
    intro r h
    obtain ⟨k, xs⟩ := kxs
    by_cases hk : k = r
    · subst hk
      rw [bucketGet, if_pos rfl] at h ⊢
      exact List.mem_cons_self _ _
    · rw [bucketGet, if_neg hk] at h ⊢
      exact List.mem_cons_of_mem _ (ih r h)

/-- Reading after the whole grouping fold: the bucket of a key collects
exactly the processed ids mapping to it, in processing order. -/
theorem bucketGet_fold (f : String → String) :
    ∀ (todo : List String) (comps : List (String × List String)) (r : String),
    bucketGet (todo.foldl (fun cs x => addToBucket cs (f x) x) comps) r
      = bucketGet comps r ++ todo.filter (fun x => f x = r) := by
  intro todo
  induction todo with
  | nil =>
    intro comps r
    simp
  | cons x rest ih =>
    intro comps r
    rw [List.foldl_cons, ih, bucketGet_addToBucket, List.filter_cons]
    by_cases h : f x = r
    · rw [if_pos h.symm, if_pos (by simp [h])]
      subst h
      simp
    · rw [if_neg (fun hc => h hc.symm), if_neg (by simp [h])]

/-- The grouping fold keeps keys duplicate-free. -/
theorem bucketKeys_fold_nodup (f : String → String) :
    ∀ (todo : List String) (comps : List (String × List String)),
    (bucketKeys comps).Nodup →
    (bucketKeys (todo.foldl (fun cs x => addToBucket cs (f x) x) comps)).Nodup := by
  intro todo
  induction todo with
  | nil =>
    intro comps h
    exact h
  | cons x rest ih =>
    intro comps h
    rw [List.foldl_cons]
    exact ih _ (bucketKeys_nodup_addToBucket h)

/-- Code-point comparison is total. -/
theorem charListLe_total : ∀ (a b : List Char), charListLe a b = true ∨ charListLe b a = true := by
  intro a
  induction a with
  | nil =>
    intro b
    exact Or.inl rfl
  | cons x xs ih =>
    intro b
    cases b with
    | nil => exact Or.inr rfl
    | cons y ys =>
      rw [charListLe, charListLe]
      by_cases h1 : x.toNat < y.toNat
      · exact Or.inl (by rw [if_pos h1])
      · by_cases h2 : y.toNat < x.toNat
        · exact Or.inr (by rw [if_pos h2])
        · rw [if_neg h1, if_neg h2, if_neg h2, if_neg h1]
          exact ih ys

/-- Code-point comparison is transitive. -/
theorem charListLe_trans : ∀ (a b c : List Char), charListLe a b = true →
    charListLe b c = true → charListLe a c = true := by
  intro a
  induction a with
  | nil =>
    intro b c _ _
    rfl
  | cons x xs ih =>
    intro b c h1 h2
    cases b with
    | nil => exact absurd h1 (by rw [charListLe]; simp)
    | cons y ys =>
      cases c with
      | nil => exact absurd h2 (by rw [charListLe]; simp)
      | cons z zs =>
        rw [charListLe] at h1 h2 ⊢
        by_cases hxy : x.toNat < y.toNat
        · by_cases hyz : y.toNat < z.toNat
          · rw [if_pos (Nat.lt_trans hxy hyz)]
          · rw [if_neg hyz] at h2
            by_cases hzy : z.toNat < y.toNat
            · rw [if_pos hzy] at h2
              exact absurd h2 (by simp)
            · have heq : y.toNat = z.toNat := by omega
              rw [if_pos (heq ▸ hxy)]
        · rw [if_neg hxy] at h1
          by_cases hyx : y.toNat < x.toNat
          · rw [if_pos hyx] at h1
            exact absurd h1 (by simp)
          · have hxyeq : x.toNat = y.toNat := by omega
            rw [if_neg hyx] at h1
            by_cases hyz : y.toNat < z.toNat
            · rw [if_pos (hxyeq ▸ hyz)]
            · rw [if_neg hyz] at h2
              by_cases hzy : z.toNat < y.toNat
              · rw [if_pos hzy] at h2
                exact absurd h2 (by simp)
              · have hyzeq : y.toNat = z.toNat := by omega
                rw [if_neg hzy] at h2
                rw [if_neg (by omega : ¬ x.toNat < z.toNat), if_neg (by omega : ¬ z.toNat < x.toNat)]
                exact ih ys zs h1 h2

/-- Python string order is total. -/
theorem strLe_total (a b : String) : strLe a b = true ∨ strLe b a = true :=
  charListLe_total a.toList b.toList

/-- Python string order is transitive. -/
theorem strLe_trans (a b c : String) (h1 : strLe a b = true) (h2 : strLe b c = true) :
    strLe a c = true :=
  charListLe_trans a.toList b.toList c.toList h1 h2

/-- The equivalence closure is monotone along pointwise mapping into a
closure. -/
theorem eqvGen_imp {R S : String → String → Prop}
    (h : ∀ a b, R a b → Relation.EqvGen S a b) :
    ∀ {x y : String}, Relation.EqvGen R x y → Relation.EqvGen S x y := by
  intro x y hxy
  induction hxy with
  | rel u v huv => exact h u v huv
  | refl u => exact .refl u
  | symm u v _ ih => exact .symm u v ih
  | trans u v w _ _ ih1 ih2 => exact .trans u v w ih1 ih2

/-- Under the identity parent map every chain is a singleton. -/
theorem rootPath_id {u : String} {l : List String}
    (h : RootPath (fun x => x) u l) : l = [u] := by
  cases h with
  | root _ _ => rfl
  | step _ _ hne _ => exact absurd rfl hne

/-- Under the identity parent map, shared root is equality. -/
theorem sameRoot_id_iff (u v : String) : sameRoot (fun x => x) u v ↔ u = v := by
  constructor
  · rintro ⟨r, ⟨l₁, hp₁, hl₁⟩, ⟨l₂, hp₂, hl₂⟩⟩
    rw [rootPath_id hp₁] at hl₁
    rw [rootPath_id hp₂] at hl₂
    simp only [List.getLast?_singleton, Option.some.injEq] at hl₁ hl₂
    rw [hl₁, hl₂]
  · rintro rfl
    exact ⟨u, root_self rfl, root_self rfl⟩

/-- The identity parent map satisfies the union-find invariant on any
carrier. -/
theorem ufInv_id (ids : List String) : UFInv ids (fun x => x) :=
  ⟨fun _ _ => rfl, fun _ hx => hx, fun x _ => ⟨[x], RootPath.root x rfl⟩⟩

/-- The relation the spec groups by: the two evidence ids both carry some
common variable entity or some common concept entity (and both exist in
the entity table). -/
def Share (tbl : List (String × Entities)) (a b : String) : Prop :=
  a ∈ tbl.map Prod.fst ∧ b ∈ tbl.map Prod.fst ∧
    ∃ e, (e ∈ (entLookup tbl a).vars ∧ e ∈ (entLookup tbl b).vars)
      ∨ (e ∈ (entLookup tbl a).concepts ∧ e ∈ (entLookup tbl b).concepts)

/-- With duplicate-free keys, lookup returns the listed entity record. -/
theorem entLookup_of_mem : ∀ {tbl : List (String × Entities)} {k : String} {ents : Entities},
    (tbl.map Prod.fst).Nodup → (k, ents) ∈ tbl → entLookup tbl k = ents := by
  intro tbl
  induction tbl with
  | nil =>
    intro k ents _ h
    cases h
  | cons kv rest ih =>
    intro k ents hnd hmem
    obtain ⟨k0, e0⟩ := kv
    have hnd' : k0 ∉ rest.map Prod.fst ∧ (rest.map Prod.fst).Nodup := by
      have h0 : (k0 :: rest.map Prod.fst).Nodup := by simpa using hnd
      rw [List.nodup_cons] at h0
      exact h0
    rcases List.mem_cons.mp hmem with hmem | hmem
    · rw [Prod.mk.injEq] at hmem
      obtain ⟨h1, h2⟩ := hmem
      rw [entLookup, List.find?_cons_of_pos _ (by simp [h1])]
      exact h2.symm
    · have hkne : ¬ (k0 = k) := fun hc => hnd'.1 (hc ▸ List.mem_map_of_mem Prod.fst hmem)
      rw [entLookup, List.find?_cons_of_neg _ (by simp [hkne])]
      exact ih hnd'.2 hmem

/-- An id is a table key exactly when it owns a row. -/
theorem mem_map_fst_iff {tbl : List (String × Entities)} {k : String} :
    k ∈ tbl.map Prod.fst ↔ ∃ ents, (k, ents) ∈ tbl := by
  rw [List.mem_map]
  constructor
  · rintro ⟨⟨k0, e0⟩, hmem, rfl⟩
    exact ⟨e0, hmem⟩
  · rintro ⟨ents, hmem⟩
    exact ⟨(k, ents), hmem, rfl⟩

/-- Membership in an entity-to-evidence value set, with duplicate-free
keys. -/
theorem evidenceOf_mem {tbl : List (String × Entities)} {f : Entities → List String}
    {e u : String} (hnd : (tbl.map Prod.fst).Nodup) :
    u ∈ evidenceOf tbl f e ↔ u ∈ tbl.map Prod.fst ∧ e ∈ f (entLookup tbl u) := by
  rw [evidenceOf, List.mem_filterMap]
  constructor
  · rintro ⟨⟨k0, e0⟩, hmem, hval⟩
    by_cases he : e ∈ f e0
    · rw [if_pos he] at hval
      have hk : k0 = u := Option.some.inj hval
      subst hk
      refine ⟨List.mem_map_of_mem Prod.fst hmem, ?_⟩
      rw [entLookup_of_mem hnd hmem]
      exact he
    · rw [if_neg he] at hval
      cases hval
  · rintro ⟨hmem, he⟩
    obtain ⟨ents, hrow⟩ := mem_map_fst_iff.mp hmem
    refine ⟨(u, ents), hrow, ?_⟩
    rw [entLookup_of_mem hnd hrow] at he
    rw [if_pos he]

/-- Both components of a star pair lie in the generating list. -/
theorem starPairs_mem {l : List String} {q : String × String} (h : q ∈ starPairs l) :
    q.1 ∈ l ∧ q.2 ∈ l := by
  cases l with
  | nil => cases h
  | cons x rest =>
    rw [starPairs, List.mem_map] at h
    obtain ⟨y, hy, rfl⟩ := h
    exact ⟨List.mem_cons_self x rest, List.mem_cons_of_mem x hy⟩

/-- Any two members of a star's generating list are connected by the
closure of a relation containing the star pairs. -/
theorem starPairs_conn {R : String → String → Prop} {l : List String}
    (hsub : ∀ q ∈ starPairs l, R q.1 q.2) {u v : String}
    (hu : u ∈ l) (hv : v ∈ l) : Relation.EqvGen R u v := by
  cases l with
  | nil => cases hu
  | cons x rest =>
    have hx : ∀ w ∈ rest, Relation.EqvGen R x w := fun w hw =>
      .rel x w (hsub (x, w) (by rw [starPairs]; exact List.mem_map_of_mem _ hw))
    have hxu : Relation.EqvGen R x u := by
      rcases List.mem_cons.mp hu with rfl | hu'
      · exact .refl u
      · exact hx u hu'
    have hxv : Relation.EqvGen R x v := by
      rcases List.mem_cons.mp hv with rfl | hv'
      · exact .refl v
      · exact hx v hv'
    exact .trans u x v (.symm x u hxu) hxv

/-- An entity carried by any table row is one of the map keys. -/
theorem mem_entityKeys {tbl : List (String × Entities)} {f : Entities → List String}
    {e : String} {row : String × Entities} (hrow : row ∈ tbl) (he : e ∈ f row.2) :
    e ∈ entityKeys tbl f := by
  rw [entityKeys, mem_dedupFirst, List.mem_flatten]
  exact ⟨dedupFirst (f row.2), List.mem_map_of_mem _ hrow, mem_dedupFirst.mpr he⟩

/-- Every union call's pair relates two ids sharing an entity (and both
lie in the table). -/
theorem unionPairs_share {tbl : List (String × Entities)}
    (hnd : (tbl.map Prod.fst).Nodup) {q : String × String} (hq : q ∈ unionPairs tbl) :
    Share tbl q.1 q.2 := by
  rw [unionPairs, List.mem_append] at hq
  rcases hq with hq | hq <;>
    [skip; skip] <;>
    · rw [List.mem_flatten] at hq
      obtain ⟨lp, hlp, hqlp⟩ := hq
      rw [List.mem_map] at hlp
      obtain ⟨e, _, rfl⟩ := hlp
      obtain ⟨h1, h2⟩ := starPairs_mem hqlp
      rw [evidenceOf_mem hnd] at h1 h2
      first
        | exact ⟨h1.1, h2.1, e, Or.inl ⟨h1.2, h2.2⟩⟩
        | exact ⟨h1.1, h2.1, e, Or.inr ⟨h1.2, h2.2⟩⟩

/-- Conversely, two ids sharing an entity are connected by the closure of
the union pairs. -/
theorem share_conn {tbl : List (String × Entities)}
    (hnd : (tbl.map Prod.fst).Nodup) {u v : String} (h : Share tbl u v) :
    Relation.EqvGen (fun a b => (a, b) ∈ unionPairs tbl) u v := by
  obtain ⟨hu, hv, e, he⟩ := h
  rcases he with ⟨heu, hev⟩ | ⟨heu, hev⟩
  · obtain ⟨ents, hrow⟩ := mem_map_fst_iff.mp hu
    have hkey : e ∈ entityKeys tbl Entities.vars :=
      mem_entityKeys hrow (by rw [entLookup_of_mem hnd hrow] at heu; exact heu)
    refine starPairs_conn (l := evidenceOf tbl Entities.vars e) ?_
      ((evidenceOf_mem hnd).mpr ⟨hu, heu⟩) ((evidenceOf_mem hnd).mpr ⟨hv, hev⟩)
    intro q hq
    rw [unionPairs, List.mem_append]
    refine Or.inl ?_
    rw [List.mem_flatten]
    exact ⟨starPairs (evidenceOf tbl Entities.vars e),
      List.mem_map_of_mem _ hkey, hq⟩
  · obtain ⟨ents, hrow⟩ := mem_map_fst_iff.mp hu
    have hkey : e ∈ entityKeys tbl Entities.concepts :=
      mem_entityKeys hrow (by rw [entLookup_of_mem hnd hrow] at heu; exact heu)
    refine starPairs_conn (l := evidenceOf tbl Entities.concepts e) ?_
      ((evidenceOf_mem hnd).mpr ⟨hu, heu⟩) ((evidenceOf_mem hnd).mpr ⟨hv, hev⟩)
    intro q hq
    rw [unionPairs, List.mem_append]
    refine Or.inr ?_
    rw [List.mem_flatten]
    exact ⟨starPairs (evidenceOf tbl Entities.concepts e),
      List.mem_map_of_mem _ hkey, hq⟩

/-- Two distinct members force length at least two. -/
theorem two_le_length_of_mem_ne {l : List String} {a b : String}
    (ha : a ∈ l) (hb : b ∈ l) (hne : a ≠ b) : 2 ≤ l.length := by
  cases l with
  | nil => cases ha
  | cons x rest =>
    cases rest with
    | nil =>
      rw [List.mem_singleton] at ha hb
      exact absurd (ha.trans hb.symm) hne
    | cons y t => simp

/-- Membership in a component's shared-entity list: exactly the entities
carried by at least two members. -/
theorem sharedOf_mem {tbl : List (String × Entities)} {f : Entities → List String}
    {src : List String} {v : String} :
    v ∈ sharedOf tbl f src ↔
      2 ≤ (src.filter fun eid => v ∈ f (entLookup tbl eid)).length := by
  rw [sharedOf]
  rw [(sortLe_perm strLe _).mem_iff, List.mem_filter]
  constructor
  · rintro ⟨_, hcount⟩
    simpa using hcount
  · intro hcount
    refine ⟨?_, by simpa using hcount⟩
    have hne : src.filter (fun eid => v ∈ f (entLookup tbl eid)) ≠ [] := by
      intro hc
      rw [hc] at hcount
      simp at hcount
    obtain ⟨eid, heid⟩ := List.exists_mem_of_ne_nil _ hne
    rw [List.mem_filter] at heid
    rw [mem_dedupFirst, List.mem_flatten]
    refine ⟨dedupFirst (f (entLookup tbl eid)), List.mem_map_of_mem _ heid.1, ?_⟩
    rw [mem_dedupFirst]
    simpa using heid.2

/-- The shared-entity list is sorted in Python string order. -/
theorem sharedOf_sorted (tbl : List (String × Entities)) (f : Entities → List String)
    (src : List String) :
    (sharedOf tbl f src).Pairwise (fun a b => strLe a b = true) :=
  sortLe_pairwise strLe_total strLe_trans _

/-- C7: with globally unique evidence ids (the Document invariant), the
Evidence Linker's output groups are exactly the connected components of
the shares-an-entity relation: every emitted link has at least two
members, duplicate-free sorted member ids, each member's group collects
precisely the table ids transitively linked to it, the shared variable
and concept lists are sorted and hold exactly the entities occurring in
at least two group members (occurrence count, not intersection), and
every id linked to some distinct id appears in an emitted group —
symmetrically, components with fewer than two members are discarded. -/
theorem evidenceLinkerComponents (extract : String → Entities)
    (paragraphs : List Paragraph) (equations : List Equation)
    (hnd : ((evidenceEntities extract paragraphs equations).map Prod.fst).Nodup) :
    (∀ link ∈ evidence_linker_node extract paragraphs equations,
      2 ≤ link.source_ids.length
      ∧ link.source_ids.Nodup
      ∧ link.source_ids.Pairwise (fun a b => strLe a b = true)
      ∧ (∀ a ∈ link.source_ids, ∀ b : String,
          b ∈ link.source_ids ↔
            b ∈ (evidenceEntities extract paragraphs equations).map Prod.fst
              ∧ Relation.EqvGen (Share (evidenceEntities extract paragraphs equations)) a b)
      ∧ link.shared_vars.Pairwise (fun a b => strLe a b = true)
      ∧ (∀ v : String, v ∈ link.shared_vars ↔
          2 ≤ (link.source_ids.filter fun eid =>
            v ∈ (entLookup (evidenceEntities extract paragraphs equations) eid).vars).length)
      ∧ link.shared_concepts.Pairwise (fun a b => strLe a b = true)
      ∧ (∀ v : String, v ∈ link.shared_concepts ↔
          2 ≤ (link.source_ids.filter fun eid =>
            v ∈ (entLookup (evidenceEntities extract paragraphs equations) eid).concepts).length))
    ∧ (∀ a ∈ (evidenceEntities extract paragraphs equations).map Prod.fst,
        (∃ b ∈ (evidenceEntities extract paragraphs equations).map Prod.fst,
          b ≠ a ∧ Relation.EqvGen (Share (evidenceEntities extract paragraphs equations)) a b) →
        ∃ link ∈ evidence_linker_node extract paragraphs equations,
          a ∈ link.source_ids) := by
  by_cases hempty : paragraphs = [] ∧ equations = []
  · have hlinks : evidence_linker_node extract paragraphs equations = [] := by
      rw [evidence_linker_node, if_pos hempty]
    have htbl : evidenceEntities extract paragraphs equations = [] := by
      rw [evidenceEntities, hempty.1, hempty.2]
      rfl
    constructor
    · intro link hlink
      rw [hlinks] at hlink
      cases hlink
    · intro a ha
      rw [htbl] at ha
      cases ha
  · by_cases hlen : ((evidenceEntities extract paragraphs equations).map Prod.fst).length < 2
    · have hlinks : evidence_linker_node extract paragraphs equations = [] := by
        rw [evidence_linker_node, if_neg hempty]
        dsimp only
        rw [if_pos hlen]
      constructor
      · intro link hlink
        rw [hlinks] at hlink
        cases hlink
      · rintro a ha ⟨b, hb, hne, _⟩
        have h2 := two_le_length_of_mem_ne hb ha hne
        omega
    · -- main branch
      set tbl := evidenceEntities extract paragraphs equations with htbl_def
      set ids := tbl.map Prod.fst with hids_def
      set fuel := ids.length with hfuel_def
      set p := (unionPairs tbl).foldl (unionStep fuel) (fun x => x) with hp_def
      set comps := (groupByRoot fuel ids p []).2 with hcomps_def
      have hlinks : evidence_linker_node extract paragraphs equations
          = comps.filterMap fun rc =>
              if rc.2.length < 2 then none
              else some { source_ids := sortLe strLe rc.2
                          shared_vars := sharedOf tbl Entities.vars rc.2
                          shared_concepts := sharedOf tbl Entities.concepts rc.2 } := by
        rw [evidence_linker_node, if_neg hempty]
        dsimp only
        rw [if_neg hlen]
      obtain ⟨hinvF, hiffF⟩ := @foldUnion_spec ids fuel hnd (le_refl _)
        (unionPairs tbl) (fun x => x) (ufInv_id ids)
        (fun pr hpr => ⟨(unionPairs_share hnd hpr).1, (unionPairs_share hnd hpr).2.1⟩)
      have hbridge : ∀ x y, sameRoot p x y ↔ Relation.EqvGen (Share tbl) x y := by
        intro x y
        rw [hp_def, hiffF x y]
        constructor
        · intro h
          refine eqvGen_imp ?_ h
          rintro a b (hab | hab)
          · rw [sameRoot_id_iff] at hab
            exact hab ▸ .refl a
          · exact .rel a b (unionPairs_share hnd hab)
        · intro h
          refine eqvGen_imp ?_ h
          intro a b hab
          refine eqvGen_imp ?_ (share_conn hnd hab)
          intro c d hcd
          exact .rel c d (Or.inr hcd)
      choose f hf using fun z => root_total hinvF z
      have hsame_f : ∀ a b, sameRoot p a b ↔ f a = f b := by
        intro a b
        constructor
        · rintro ⟨r, h1, h2⟩
          rw [root_unique (hf a) h1, root_unique (hf b) h2]
        · intro h
          exact ⟨f b, h ▸ hf a, hf b⟩
      have hgroup : comps = ids.foldl (fun cs x => addToBucket cs (f x) x) [] := by
        rw [hcomps_def]
        exact groupByRoot_spec hnd (le_refl _) f ids p [] hinvF hf
      have hget : ∀ r, bucketGet comps r = ids.filter fun x => f x = r := by
        intro r
        rw [hgroup, bucketGet_fold]
        rfl
      have hkeysnd : (bucketKeys comps).Nodup := by
        rw [hgroup]
        exact bucketKeys_fold_nodup f ids [] (by simp [bucketKeys])
      have hrc2 : ∀ rc ∈ comps, rc.2 = ids.filter fun x => f x = rc.1 := by
        rintro ⟨r, xs⟩ hrc
        have := bucketGet_of_mem hkeysnd hrc
        rw [← this, hget]
      have hEqv : ∀ a b, (Relation.EqvGen (Share tbl) a b ↔ f a = f b) := by
        intro a b
        rw [← hbridge, hsame_f]
      refine ⟨?_, ?_⟩
      · intro link hlink
        rw [hlinks, List.mem_filterMap] at hlink
        obtain ⟨rc, hrc, hval⟩ := hlink
        by_cases hsm : rc.2.length < 2
        · rw [if_pos hsm] at hval
          cases hval
        · rw [if_neg hsm] at hval
          have hlinkeq := Option.some.inj hval
          have hperm : (sortLe strLe rc.2).Perm rc.2 := sortLe_perm strLe rc.2
          have hmem2 : ∀ a, a ∈ rc.2 ↔ (a ∈ ids ∧ f a = rc.1) := by
            intro a
            rw [hrc2 rc hrc, List.mem_filter]
            simp
          subst hlinkeq
          refine ⟨?_, ?_, ?_, ?_, ?_, ?_, ?_, ?_⟩
          · rw [hperm.length_eq]
            omega
          · exact hperm.nodup_iff.mpr ((hrc2 rc hrc ▸ hnd.filter _))
          · exact sortLe_pairwise strLe_total strLe_trans rc.2
          · intro a ha b
            rw [hperm.mem_iff, hmem2 a] at ha
            rw [hperm.mem_iff, hmem2 b, hEqv a b]
            obtain ⟨ha1, ha2⟩ := ha
            constructor
            · rintro ⟨hb1, hb2⟩
              exact ⟨hb1, by rw [ha2, hb2]⟩
            · rintro ⟨hb1, hb2⟩
              exact ⟨hb1, by rw [← hb2, ha2]⟩
          · exact sharedOf_sorted tbl Entities.vars rc.2
          · intro v
            rw [sharedOf_mem, (hperm.filter _).length_eq]
          · exact sharedOf_sorted tbl Entities.concepts rc.2
          · intro v
            rw [sharedOf_mem, (hperm.filter _).length_eq]
      · rintro a ha ⟨b, hb, hne, hshare⟩
        have hfeq : f a = f b := (hEqv a b).mp hshare
        have hamem : a ∈ bucketGet comps (f a) := by
          rw [hget]
          rw [List.mem_filter]
          simp [ha]
        have hbmem : b ∈ bucketGet comps (f a) := by
          rw [hget]
          rw [List.mem_filter]
          simp [hb, hfeq.symm]
        have h2le : 2 ≤ (bucketGet comps (f a)).length :=
          two_le_length_of_mem_ne hbmem hamem hne
        have hne' : bucketGet comps (f a) ≠ [] := by
          intro hc
          rw [hc] at h2le
          simp at h2le
        have hrcmem := mem_of_bucketGet_ne comps (f a) hne'
        refine ⟨{ source_ids := sortLe strLe (bucketGet comps (f a))
                  shared_vars := sharedOf tbl Entities.vars (bucketGet comps (f a))
                  shared_concepts := sharedOf tbl Entities.concepts (bucketGet comps (f a)) },
                ?_, ?_⟩
        · rw [hlinks, List.mem_filterMap]
          refine ⟨(f a, bucketGet comps (f a)), hrcmem, ?_⟩
          rw [if_neg (by simpa using h2le)]
        · rw [(sortLe_perm strLe _).mem_iff]
          exact hamem

/-- Concrete linker inputs: three paragraphs chained by a shared variable
(`p1`–`p2`) and a shared concept (`p2`–`p3`). -/
def wLinkPara1 : Paragraph :=
  { paragraph_id := "p1", text := "a", entities := some ⟨["Q"], []⟩ }

def wLinkPara2 : Paragraph :=
  { paragraph_id := "p2", text := "b", entities := some ⟨["Q"], ["attention"]⟩ }

def wLinkPara3 : Paragraph :=
  { paragraph_id := "p3", text := "c", entities := some ⟨[], ["attention"]⟩ }

def wLinkExtract : String → Entities := fun _ => ⟨[], []⟩

theorem evidenceLinkerComponentsWitness :
    ∃ link ∈ evidence_linker_node wLinkExtract [wLinkPara1, wLinkPara2, wLinkPara3] [],
      "p1" ∈ link.source_ids :=
  (evidenceLinkerComponents wLinkExtract [wLinkPara1, wLinkPara2, wLinkPara3] []
      (by decide)).2
    "p1" (by decide)
    ⟨"p3", by decide, by decide,
      Relation.EqvGen.trans _ "p2" _
        (Relation.EqvGen.rel _ _ ⟨by decide, by decide, "Q", Or.inl ⟨by decide, by decide⟩⟩)
        (Relation.EqvGen.rel _ _
          ⟨by decide, by decide, "attention", Or.inr ⟨by decide, by decide⟩⟩)⟩
